import Mathlib

/-!
Verification of the package/namespace search engine in
`src/python_scripts/src/package_finder.py`.

The Python program is shallowly embedded: pure string manipulation is
modelled over `List Char` (Python strings are sequences of code points, so
this is the faithful view), the filesystem is a finite rose tree, `os.walk`
is a recursive traversal, and compiled regular expressions are abstracted
as line-matching oracles wherever only the scanning control flow matters.
Pattern *texts* (the strings handed to `re.compile`) are embedded exactly,
together with a conservative validity checker for the regex dialect they
use, in order to settle the escaping claim.

Python's `list.sort(key=...)` is modelled by a stable insertion sort on the
same key; `ProcessPoolExecutor.as_completed` aggregation is modelled by
quantifying over the arrival order of batch results (an arbitrary
permutation of the batch list).
-/

/-- Character-level model of Python `str.lower` (ASCII case folding). -/
def lowerL (cs : List Char) : List Char := cs.map Char.toLower

/-- Model of Python `str.strip()`: drop leading and trailing whitespace. -/
def stripS (s : String) : String :=
  String.mk (((s.data.dropWhile Char.isWhitespace).reverse.dropWhile Char.isWhitespace).reverse)

/-- Model of Python `str.endswith` on code-point lists. -/
def endsWithL (l suf : List Char) : Bool := l.drop (l.length - suf.length) == suf

/-- Helper for substring search: does `n` occur at the start of `l`? -/
def startsWithL : List Char → List Char → Bool
  | _, [] => true
  | [], _ :: _ => false
  | a :: l, b :: n => a == b && startsWithL l n

/-- Model of Python `needle in haystack` (substring containment). -/
def containsL : List Char → List Char → Bool
  | [], n => n.isEmpty
  | a :: l, n => startsWithL (a :: l) n || containsL l n

/-- Model of `pathlib.PurePath.suffix` applied to a file name: the part
from the last dot on, empty when the dot is absent, leading, or final. -/
def pathSuffix (name : String) : String :=
  let cs := name.data
  match ((List.range cs.length).filter (fun i => cs.getD i ' ' == '.')).getLast? with
  | some i => if 0 < i ∧ i < cs.length - 1 then String.mk (cs.drop i) else ""
  | none => ""

/-- Model of `pathlib.PurePath.name` of a path string: the final component. -/
def basenameOf (p : String) : String :=
  String.mk ((p.data.reverse.takeWhile (fun c => c != '/')).reverse)

/-- Model of repeated `pathlib` `/` joining: `joinPath r [a, b] = r/a/b`. -/
def joinPath (root : String) : List String → String
  | [] => root
  | c :: cs => joinPath (root ++ "/" ++ c) cs

/-- Single-quote character, used in literal message texts. -/
def squo : String := String.singleton (Char.ofNat 39)

/-- Embedding of the `PackageMatch` dataclass. -/
structure PackageMatch where
  path : String
  match_type : String
  line_number : Option Nat := none
  line_content : Option String := none
deriving DecidableEq, Repr

/-- Embedding of the `SearchResult` dataclass. -/
structure SearchResult where
  package_name : String
  language : String
  definitions : List PackageMatch
  imports : List PackageMatch
  usages : List PackageMatch
deriving DecidableEq, Repr

/-- Embedding of the `found` property (`bool(defs or imports or usages)`). -/
def SearchResult.found (r : SearchResult) : Bool :=
  !r.definitions.isEmpty || !r.imports.isEmpty || !r.usages.isEmpty

/-- The `SKIP_DIRS` set from the source (the literal `*.egg-info` entry is
kept verbatim: as in the Python set it can only match by exact equality). -/
def SKIP_DIRS : List String :=
  [".git", ".hg", ".svn", "__pycache__", ".pytest_cache", ".mypy_cache",
   ".ruff_cache", "node_modules", ".venv", "venv", "env", ".env", ".tox",
   "build", "dist", "*.egg-info", ".eggs", "bin", "obj", "packages",
   ".vs", ".idea"]

/-- Embedding of `should_skip_dir`. -/
def should_skip_dir (dir_name : String) : Bool :=
  SKIP_DIRS.contains dir_name || endsWithL dir_name.data ".egg-info".data

/-- Registry iteration order of `LANGUAGE_CONFIG` (dict insertion order). -/
def LANG_ORDER : List String := ["python", "csharp", "perl", "rust", "packageset"]

/-- The `extensions` field of each `LANGUAGE_CONFIG` entry. -/
def extensionsOf (lang : String) : List String :=
  if lang = "python" then [".py", ".pyi", ".pyx"]
  else if lang = "csharp" then [".cs", ".csx"]
  else if lang = "perl" then [".pl", ".pm", ".t", ".pod"]
  else if lang = "rust" then [".rs"]
  else if lang = "packageset" then [".packageset"]
  else []

/-- The `config_files` field of each `LANGUAGE_CONFIG` entry. -/
def config_filesOf (lang : String) : List String :=
  if lang = "python" then ["pyproject.toml", "setup.py", "setup.cfg", "requirements.txt"]
  else if lang = "csharp" then ["*.csproj", "*.sln", "packages.config", "*.nuspec"]
  else if lang = "perl" then ["Makefile.PL", "Build.PL", "cpanfile", "META.json", "META.yml"]
  else if lang = "rust" then ["Cargo.toml", "Cargo.lock"]
  else []

/-- The `ALL_EXTENSIONS` union (membership is all that is ever used). -/
def ALL_EXTENSIONS : List String := LANG_ORDER.flatMap extensionsOf

/-- Union of every profile's config files (the unknown-language branch of
`iter_source_files`). -/
def ALL_CONFIG_FILES : List String := LANG_ORDER.flatMap config_filesOf

/-- A file in the modelled filesystem: a name and its text lines. -/
structure FileNode where
  name : String
  lines : List String
deriving DecidableEq, Repr

/-- A directory tree: name, subdirectories, regular files. -/
inductive FSTree where
  | dir : String → List FSTree → List FileNode → FSTree

/-- Name of a directory node. -/
def nameOf : FSTree → String
  | .dir n _ _ => n

/-- Subdirectories of a directory node. -/
def subdirsOf : FSTree → List FSTree
  | .dir _ s _ => s

/-- Files of a directory node. -/
def filesOf : FSTree → List FileNode
  | .dir _ _ f => f

mutual
/-- Model of `os.walk` combined with the in-place `dirnames[:] =` pruning
idiom used by every scanning component: visit the current directory, then
recurse only into subdirectories that survive `should_skip_dir`.  Each
visited directory is reported as (components below the root, directory
name, files).  The root directory itself is always visited, exactly as
`os.walk(root)` always yields its argument first. -/
def walkFrom (comps : List String) (dname : String) : FSTree → List (List String × String × List FileNode)
  | .dir _ subs files => (comps, dname, files) :: walkSubs comps subs
/-- Companion of `walkFrom`: walk a list of subdirectories in order,
skipping the denylisted ones before descending. -/
def walkSubs (comps : List String) : List FSTree → List (List String × String × List FileNode)
  | [] => []
  | d :: ds =>
    (if should_skip_dir (nameOf d) then [] else walkFrom (comps ++ [nameOf d]) (nameOf d) d)
      ++ walkSubs comps ds
end

/-- All directories visited when walking a tree rooted at path `root`. -/
def walkDirs (root : String) (t : FSTree) : List (List String × String × List FileNode) :=
  walkFrom [] (basenameOf root) t

/-- All files yielded by the pruned walk, with their directory components. -/
def walkFilesOf (root : String) (t : FSTree) : List (List String × FileNode) :=
  (walkDirs root t).flatMap (fun v => v.2.2.map (fun f => (v.1, f)))

/-- Full path string of a walked file (`Path(dirpath) / filename`). -/
def filePathOf (base : String) (comps : List String) (fname : String) : String :=
  joinPath base comps ++ "/" ++ fname

/-- Embedding of `iter_source_files` (with `include_configs` as passed by
`find_package`, namely `True`): keep files whose suffix is in the selected
extension set, else config-named files; unknown languages fall back to the
union of all profiles. -/
def iter_source_files (root : String) (t : FSTree) (language : String)
    (include_configs : Bool) : List (String × List String) :=
  let known := LANG_ORDER.contains language
  let exts := if known then extensionsOf language else ALL_EXTENSIONS
  let cfgs := if known then config_filesOf language else ALL_CONFIG_FILES
  (walkFilesOf root t).filterMap (fun x =>
    if exts.contains (pathSuffix x.2.name) then
      some (filePathOf root x.1 x.2.name, x.2.lines)
    else if include_configs && cfgs.contains x.2.name then
      some (filePathOf root x.1 x.2.name, x.2.lines)
    else none)

/-- The text of a regular expression handed to `re.compile`. -/
abbrev PatStr := List Char

/-- The characters replaced by `re.escape` (CPython 3.7+ special set). -/
def RE_SPECIAL : List Char :=
  ['(', ')', '[', ']', '\x7b', '\x7d', '?', '*', '+', '-', '|', '^', '$',
   '\\', '.', '&', '~', '#', ' ', '\t', '\n', '\r', '\x0b', '\x0c']

/-- Code-point-level model of `re.escape`: prefix every special character
with a backslash, leave everything else untouched. -/
def reEscapeL (cs : List Char) : PatStr :=
  cs.flatMap (fun c => if RE_SPECIAL.contains c then ['\\', c] else [c])

/-- Model of `re.escape` on strings. -/
def re_escape (s : String) : PatStr := reEscapeL s.data

/-- Escapes accepted by the validity checker: any non-alphanumeric
character, or one of the character-class letters used by the pattern
templates.  Python additionally accepts a few other letter escapes; the
checker is deliberately conservative, so acceptance implies that
`re.compile` succeeds. -/
def validEsc (e : Char) : Bool :=
  !e.isAlphanum || ['s', 'S', 'b', 'B', 'w', 'W', 'd', 'D'].contains e

/-- Conservative validity checker for the regex dialect used by the
pattern templates.  State: first argument selects normal mode (`false`) or
character-class mode (`true`); then the open-group depth; then, in normal
mode, whether a quantifier may appear (a repeatable atom precedes), and in
class mode whether the class already has a member.  Every rejection the
checker performs on this dialect corresponds to a `re.error` (unbalanced
groups or classes, dangling escape, quantifier with nothing to repeat),
and everything it accepts compiles under Python `re`. -/
def okM : Bool → Nat → Bool → List Char → Bool
  | false, d, _, [] => d == 0
  | true, _, _, [] => false
  | false, _, _, '\\' :: [] => false
  | false, d, _, '\\' :: e :: r => validEsc e && okM false d true r
  | false, d, _, '(' :: '?' :: ':' :: r => okM false (d+1) false r
  | false, _, _, '(' :: '?' :: _ => false
  | false, d, _, '(' :: rest => okM false (d+1) false rest
  | false, d, _, ')' :: rest => if d == 0 then false else okM false (d-1) true rest
  | false, d, _, '[' :: '^' :: r => okM true d false r
  | false, d, _, '[' :: rest => okM true d false rest
  | false, d, q, '*' :: rest => if q then okM false d false rest else false
  | false, d, q, '+' :: rest => if q then okM false d false rest else false
  | false, d, q, '?' :: rest => if q then okM false d false rest else false
  | false, d, _, '|' :: rest => okM false d false rest
  | false, d, _, '^' :: rest => okM false d false rest
  | false, d, _, '$' :: rest => okM false d false rest
  | false, _, _, '\x7b' :: _ => false
  | false, _, _, '\x7d' :: _ => false
  | false, _, _, ']' :: _ => false
  | false, d, _, _ :: rest => okM false d true rest
  | true, d, h, ']' :: rest => if h then okM false d true rest else false
  | true, _, _, '\\' :: [] => false
  | true, d, _, '\\' :: e :: r => validEsc e && okM true d true r
  | true, _, _, '-' :: _ => false
  | true, d, _, _ :: rest => okM true d true rest

/-- A pattern text compiles when the checker accepts it from the start
state. -/
def compilesRe (s : PatStr) : Bool := okM false 0 false s

/-- Embedding of `get_definition_patterns`: the exact pattern texts built
by the source (the C# `re.IGNORECASE` flag affects matching only, not
compilation, and matching is abstracted elsewhere). -/
def get_definition_patterns (package_name language : String) : List PatStr :=
  let escaped := re_escape package_name
  if language = "python" then []
  else if language = "csharp" then
    ["^\\s*namespace\\s+".toList ++ escaped ++ "\\s*[\x7b;]".toList,
     "^\\s*namespace\\s+".toList ++ escaped ++ "\\.".toList]
  else if language = "perl" then
    ["^\\s*package\\s+".toList ++ escaped ++ "\\s*;".toList,
     "^\\s*package\\s+".toList ++ escaped ++ "::".toList]
  else if language = "rust" then
    ["^\\s*(?:pub\\s+)?mod\\s+".toList ++ escaped ++ "\\s*\\\x7b".toList,
     "^\\s*(?:pub\\s+)?mod\\s+".toList ++ escaped ++ "\\s*;".toList,
     "^\\s*name\\s*=\\s*\"".toList ++ escaped ++ "\"".toList]
  else []

/-- Embedding of `get_import_patterns`: the exact pattern texts built by
the source. -/
def get_import_patterns (package_name language : String) : List PatStr :=
  let escaped := re_escape package_name
  if language = "python" then
    ["^\\s*import\\s+".toList ++ escaped ++ "(?:\\s|$|,)".toList,
     "^\\s*from\\s+".toList ++ escaped ++ "(?:\\.|$|\\s)".toList,
     "^\\s*import\\s+.*\\b".toList ++ escaped ++ "\\b".toList]
  else if language = "csharp" then
    ["^\\s*using\\s+".toList ++ escaped ++ "\\s*;".toList,
     "^\\s*using\\s+".toList ++ escaped ++ "\\.".toList,
     "^\\s*using\\s+static\\s+".toList ++ escaped ++ "\\.".toList,
     "^\\s*using\\s+\\w+\\s*=\\s*".toList ++ escaped ++ "".toList]
  else if language = "perl" then
    ["^\\s*use\\s+".toList ++ escaped ++ "\\s*[;(]".toList,
     "^\\s*use\\s+".toList ++ escaped ++ "::".toList,
     "^\\s*require\\s+".toList ++ escaped ++ "\\s*;".toList,
     "^\\s*require\\s+".toList ++ escaped ++ "::".toList]
  else if language = "rust" then
    ["^\\s*use\\s+".toList ++ escaped ++ "\\s*;".toList,
     "^\\s*use\\s+".toList ++ escaped ++ "::".toList,
     "^\\s*use\\s+crate::".toList ++ escaped ++ "".toList,
     "^\\s*use\\s+super::".toList ++ escaped ++ "".toList,
     "^\\s*extern\\s+crate\\s+".toList ++ escaped ++ "\\s*;".toList,
     "^\\s*".toList ++ escaped ++ "\\s*=".toList]
  else []

/-- Embedding of `get_usage_pattern`: the exact pattern text built by the
source, when the language has one. -/
def get_usage_pattern (package_name language : String) : Option PatStr :=
  let escaped := re_escape package_name
  if language = "python" then some ("\\b".toList ++ escaped ++ "\\.".toList)
  else if language = "csharp" then some ("\\b".toList ++ escaped ++ "\\.".toList)
  else if language = "perl" then some ("\\b".toList ++ escaped ++ "(?:::|->)".toList)
  else if language = "rust" then some ("\\b".toList ++ escaped ++ "::".toList)
  else none

/-- Core of `search_file_for_imports`: scan lines from line number `n`
with the given compiled import matchers and optional usage matcher.  A
line matching some import pattern is recorded as an import and the usage
pattern is not tested for it; otherwise the usage pattern, when present,
may record a usage. -/
def scanImportsUsages (ips : List (String → Bool)) (up : Option (String → Bool))
    (path : String) : Nat → List String → List PackageMatch × List PackageMatch
  | _, [] => ([], [])
  | n, line :: rest =>
    let r := scanImportsUsages ips up path (n+1) rest
    if ips.any (fun p => p line) then
      (⟨path, "import", some n, some (stripS line)⟩ :: r.1, r.2)
    else
      match up with
      | some u =>
        if u line then (r.1, ⟨path, "usage", some n, some (stripS line)⟩ :: r.2)
        else r
      | none => r

/-- Embedding of `search_file_for_imports`: the compiled patterns are the
oracle's interpretation of the exact pattern texts the source compiles. -/
def search_file_for_imports (oracle : PatStr → String → Bool)
    (package_name language path : String) (lines : List String) :
    List PackageMatch × List PackageMatch :=
  scanImportsUsages ((get_import_patterns package_name language).map oracle)
    ((get_usage_pattern package_name language).map oracle) path 1 lines

/-- Embedding of `search_files_batch`: concatenate per-file results in
batch order. -/
def search_files_batch (oracle : PatStr → String → Bool)
    (package_name language : String) (batch : List (String × List String)) :
    List PackageMatch × List PackageMatch :=
  let rs := batch.map (fun f => search_file_for_imports oracle package_name language f.1 f.2)
  ((rs.map Prod.fst).flatten, (rs.map Prod.snd).flatten)

/-- Filename test of the packageset locator, applied to a file already
known to end in `.packageset`: the stem (the name with the final
`.packageset` removed, case-folded) equals the case-folded package name,
or ends with `.` followed by it. -/
def pkgsetNameMatches (package_name fname : String) : Bool :=
  let base := lowerL (fname.data.take (fname.data.length - ".packageset".data.length))
  base == lowerL package_name.data || endsWithL base ('.' :: lowerL package_name.data)

/-- Per-file logic of `find_packageset_definition`.  `idFind` abstracts
the `re.search` for the `"id": "...name..."` field over the whole content
(returning the 1-based line number and stripped line text of the first
occurrence, when any); the final loose check is a case-insensitive
substring test, embedded exactly. -/
def process_packageset_file (idFind : String → Option (Nat × String))
    (package_name path fname : String) (lines : List String) : List PackageMatch :=
  if !endsWithL fname.data ".packageset".data then []
  else if pkgsetNameMatches package_name fname then
    [⟨path, "definition", none, some ("Filename match: " ++ fname)⟩]
  else
    let content := String.intercalate "\n" lines
    match idFind content with
    | some (ln, lc) => [⟨path, "definition", some ln, some lc⟩]
    | none =>
      if containsL (lowerL content.data) (lowerL package_name.data) then
        [⟨path, "import", none,
          some ("References " ++ squo ++ package_name ++ squo ++ " in content")⟩]
      else []

/-- First subdirectory with the given name, as resolved by path joining. -/
def findChildDir (t : FSTree) (n : String) : Option FSTree :=
  (subdirsOf t).find? (fun d => nameOf d == n)

/-- Resolve a chain of subdirectory names below a tree. -/
def findSubdirChain : FSTree → List String → Option FSTree
  | t, [] => some t
  | t, n :: ns =>
    match findChildDir t n with
    | some d => findSubdirChain d ns
    | none => none

/-- The canonical packageset directory components used by the source. -/
def PKGSET_CANON : List String := ["src", "otools", "deps", "pkgsets"]

/-- Root selection of `find_packageset_definition`: prefer the canonical
`src/otools/deps/pkgsets` subdirectory when it exists, else the whole
root. -/
def pkgset_roots (root : String) (t : FSTree) : String × FSTree :=
  match findSubdirChain t PKGSET_CANON with
  | some sub => (joinPath root PKGSET_CANON, sub)
  | none => (root, t)

/-- Files examined by the packageset locator (its own pruned walk). -/
def pkgsetScanFiles (root : String) (t : FSTree) : List (List String × FileNode) :=
  walkFilesOf (pkgset_roots root t).1 (pkgset_roots root t).2

/-- Embedding of `find_packageset_definition`. -/
def find_packageset_definition (idFind : String → Option (Nat × String))
    (root : String) (t : FSTree) (package_name : String) : List PackageMatch :=
  (pkgsetScanFiles root t).flatMap (fun x =>
    process_packageset_file idFind package_name
      (filePathOf (pkgset_roots root t).1 x.1 x.2.name) x.2.name x.2.lines)

/-- Line scan of the lexical branch of `find_package_definition`: at most
one definition match per line (the source breaks out of the pattern loop
after the first matching pattern). -/
def defScanLines (pats : List (String → Bool)) (path : String) :
    Nat → List String → List PackageMatch
  | _, [] => []
  | n, line :: rest =>
    (if pats.any (fun p => p line) then
       [⟨path, "definition", some n, some (stripS line)⟩]
     else [])
      ++ defScanLines pats path (n+1) rest

/-- Embedding of `find_package_definition`: Python packages are located
structurally (a directory named like the package containing
`__init__.py`, and any file named `<package>.py`); every other language
scans files with the language's extensions against the compiled
definition patterns. -/
def find_package_definition (oracle : PatStr → String → Bool)
    (root : String) (t : FSTree) (package_name language : String) : List PackageMatch :=
  if language = "python" then
    (walkDirs root t).flatMap (fun v =>
      (if v.2.1 == package_name && (v.2.2.map FileNode.name).contains "__init__.py" then
         [⟨joinPath root v.1 ++ "/" ++ "__init__.py", "definition", none, none⟩]
       else [])
        ++
      (if (v.2.2.map FileNode.name).contains (package_name ++ ".py") then
         [⟨joinPath root v.1 ++ "/" ++ (package_name ++ ".py"), "definition", none, none⟩]
       else []))
  else
    let exts := if LANG_ORDER.contains language then extensionsOf language else ALL_EXTENSIONS
    let pats := (get_definition_patterns package_name language).map oracle
    (walkFilesOf root t).flatMap (fun x =>
      if exts.contains (pathSuffix x.2.name) then
        defScanLines pats (filePathOf root x.1 x.2.name) 1 x.2.lines
      else [])

/-- Counters of `detect_language`, in registry iteration order. -/
def initCounts : List (String × Nat) := LANG_ORDER.map (fun l => (l, 0))

/-- One file of the census: increment the first profile whose extension
set contains the file's suffix (the inner loop breaks after a hit). -/
def incFirstLang : List (String × Nat) → String → List (String × Nat)
  | [], _ => []
  | (l, v) :: rest, suf =>
    if (extensionsOf l).contains suf then (l, v+1) :: rest
    else (l, v) :: incFirstLang rest suf

/-- Combined count across all languages. -/
def countsTotal (cs : List (String × Nat)) : Nat := (cs.map Prod.snd).sum

/-- Directory loop of `detect_language`: tally each directory's files,
stopping early once more than 1000 files have been counted. -/
def census (counts : List (String × Nat)) : List (List FileNode) → List (String × Nat)
  | [] => counts
  | files :: rest =>
    let c2 := files.foldl (fun cs f => incFirstLang cs (pathSuffix f.name)) counts
    if countsTotal c2 > 1000 then c2 else census c2 rest

/-- The census the auto-detector computes over a tree. -/
def detect_counts (t : FSTree) : List (String × Nat) :=
  census initCounts ((walkFrom [] "" t).map (fun v => v.2.2))

/-- Model of Python `max(keys, key=...)` over the remaining entries with a
current best: `max` keeps the current candidate unless a later value is
strictly greater, so the first maximum in iteration order wins. -/
def firstMaxKeyAux (k : String) (v : Nat) : List (String × Nat) → String
  | [] => k
  | (k2, v2) :: rest => if v2 > v then firstMaxKeyAux k2 v2 rest else firstMaxKeyAux k v rest

/-- Model of Python `max(counts.values())` (with 0 for an empty list). -/
def maxValue (cs : List (String × Nat)) : Nat := (cs.map Prod.snd).foldl max 0

/-- Embedding of `detect_language`. -/
def detect_language (t : FSTree) : String :=
  let counts := detect_counts t
  if maxValue counts == 0 then "csharp"
  else
    match counts with
    | [] => "csharp"
    | (k, v) :: rest => firstMaxKeyAux k v rest

/-- Fuelled splitting of a list into contiguous chunks of size `n` (the
fuel is the list length, which always suffices when `1 ≤ n`).  This models
`[all_files[i : i + batch_size] for i in range(0, len(all_files), batch_size)]`. -/
def chunksAux (n : Nat) : Nat → List α → List (List α)
  | _, [] => []
  | 0, a :: l => [a :: l]
  | f+1, a :: l => (a :: l).take n :: chunksAux n f ((a :: l).drop n)

/-- Contiguous batches of size `n`. -/
def chunksOf (n : Nat) (l : List α) : List (List α) := chunksAux n l.length l

/-- Sort key used by `find_package`: `(m.path, m.line_number or 0)`,
compared lexicographically exactly as Python compares the tuple (paths by
code-point order). -/
def matchKey (m : PackageMatch) : Lex (List Char × Nat) :=
  toLex (m.path.data, m.line_number.getD 0)

/-- Ordering relation of the final sort. -/
def matchLe (a b : PackageMatch) : Prop := matchKey a ≤ matchKey b

instance : DecidableRel matchLe := fun a b => inferInstanceAs (Decidable (_ ≤ _))

instance : IsTotal PackageMatch matchLe := ⟨fun a b => le_total (matchKey a) (matchKey b)⟩

instance : IsTrans PackageMatch matchLe :=
  ⟨fun _ _ _ h1 h2 => le_trans h1 h2⟩

/-- Model of `list.sort(key=lambda m: (m.path, m.line_number or 0))`: a
stable sort by the key (insertion sort is stable, like Python's sort). -/
def sortMatches (l : List PackageMatch) : List PackageMatch := l.insertionSort matchLe

/-- Language resolution step of `find_package` (`auto` triggers detection). -/
def resolvedLang (t : FSTree) (language : String) : String :=
  if language = "auto" then detect_language t else language

/-- Step 0 of `find_package`: the packageset matches, when enabled. -/
def pkgsetPart (idFind : String → Option (Nat × String)) (root : String)
    (t : FSTree) (package_name : String) (search_packagesets : Bool) : List PackageMatch :=
  if search_packagesets then find_packageset_definition idFind root t package_name else []

/-- Embedding of `find_package`, parameterised by the order in which
batch results are folded into the aggregate (`arrival`).  The sequential
branch folds the batches in order; the parallel branch folds them in
completion order, an arbitrary permutation of the same list, which is the
only way the two branches differ. -/
def find_package_core (oracle : PatStr → String → Bool)
    (idFind : String → Option (Nat × String)) (root : String) (t : FSTree)
    (package_name language : String) (search_packagesets : Bool)
    (arrival : List (List (String × List String))) : SearchResult :=
  { package_name := package_name
    language := resolvedLang t language
    definitions :=
      (pkgsetPart idFind root t package_name search_packagesets).filter
          (fun m => m.match_type == "definition")
        ++ find_package_definition oracle root t package_name (resolvedLang t language)
    imports := sortMatches
      ((pkgsetPart idFind root t package_name search_packagesets).filter
          (fun m => !(m.match_type == "definition"))
        ++ ((arrival.map (search_files_batch oracle package_name
              (resolvedLang t language))).map Prod.fst).flatten)
    usages := sortMatches
      (((arrival.map (search_files_batch oracle package_name
          (resolvedLang t language))).map Prod.snd).flatten) }

/-- The batch list `find_package` builds for a given (resolved) language. -/
def batchesFor (root : String) (t : FSTree) (language : String) (batchSize : Nat) :
    List (List (String × List String)) :=
  chunksOf batchSize (iter_source_files root t language true)

/-- Embedding of `find_package` run sequentially (one batch, or
`max_workers == 1`): batches are folded in their natural order. -/
def find_package (oracle : PatStr → String → Bool)
    (idFind : String → Option (Nat × String)) (root : String) (t : FSTree)
    (package_name language : String) (batchSize : Nat)
    (search_packagesets : Bool) : SearchResult :=
  find_package_core oracle idFind root t package_name language search_packagesets
    (batchesFor root t (resolvedLang t language) batchSize)

/-- Model of `PurePath.relative_to(root)` as used on paths produced under
the root. -/
def relative_to (root p : String) : String :=
  if startsWithL p.data (root.data ++ ['/']) then String.mk (p.data.drop (root.data.length + 1))
  else p

/-- Rendering of `f-string` interpolation of an `int | None` line number. -/
def lineNumberStr : Option Nat → String
  | some n => toString n
  | none => "None"

/-- The `"=" * 60` separator. -/
def eqBar : String := String.mk (List.replicate 60 '=')

/-- The `"-" * 40` separator. -/
def dashBar : String := String.mk (List.replicate 40 '-')

/-- Definitions block of `format_results`: header with the true total,
separator, then the first `max_items` entries.  No truncation suffix is
emitted for this category. -/
def defsSection (root : String) (defs : List PackageMatch) (maxItems : Nat) : List String :=
  if defs.isEmpty then []
  else
    ("\n📦 Package Definitions (" ++ toString defs.length ++ "):") :: dashBar ::
      (defs.take maxItems).map (fun m => "  " ++ relative_to root m.path)

/-- Per-match display lines of the imports and usages blocks (the content
line is shown only when the snippet is present and non-empty, matching
Python truthiness). -/
def matchEntryLines (root : String) (m : PackageMatch) : List String :=
  ("  " ++ relative_to root m.path ++ ":" ++ lineNumberStr m.line_number) ::
    (match m.line_content with
     | some c => if c == "" then [] else ["    " ++ c]
     | none => [])

/-- Imports block of `format_results`: header with the true total,
separator, first `max_items` entries, and an explicit `... and N more`
suffix when the display was truncated. -/
def importsSection (root : String) (imps : List PackageMatch) (maxItems : Nat) : List String :=
  if imps.isEmpty then []
  else
    ("\n📥 Imports (" ++ toString imps.length ++ "):") :: dashBar ::
      ((imps.take maxItems).flatMap (matchEntryLines root) ++
        (if maxItems < imps.length then
           ["  ... and " ++ toString (imps.length - maxItems) ++ " more"]
         else []))

/-- Usages block of `format_results`, mirroring the imports block. -/
def usagesSection (root : String) (uses : List PackageMatch) (maxItems : Nat) : List String :=
  if uses.isEmpty then []
  else
    ("\n🔗 Usages (" ++ toString uses.length ++ "):") :: dashBar ::
      ((uses.take maxItems).flatMap (matchEntryLines root) ++
        (if maxItems < uses.length then
           ["  ... and " ++ toString (uses.length - maxItems) ++ " more"]
         else []))

/-- Summary block of `format_results` (always reports true totals). -/
def summarySection (r : SearchResult) : List String :=
  ["\n" ++ eqBar, "Summary:",
   "  Definitions: " ++ toString r.definitions.length,
   "  Import statements: " ++ toString r.imports.length,
   "  Usage locations: " ++ toString r.usages.length]

/-- Embedding of `format_results`, as the list of lines the source joins
with newlines. -/
def format_results (r : SearchResult) (root : String) (maxItems : Nat) : List String :=
  let hdr := ["Search Results for: " ++ r.package_name ++ " (" ++ r.language ++ ")", eqBar]
  if !r.found then hdr ++ ["No matches found."]
  else
    hdr ++ defsSection root r.definitions maxItems
      ++ importsSection root r.imports maxItems
      ++ usagesSection root r.usages maxItems
      ++ summarySection r

/-- Outcome of the two root-path checks `main` performs before scanning. -/
inductive RootCheck where
  | missing : RootCheck
  | notDir : RootCheck
  | okDir : FSTree → RootCheck

/-- Exit-code behaviour of `main`: an invalid root exits 1 before any
search; otherwise the search runs and the exit code is 0 exactly when
`result.found` holds. -/
def main_exit (oracle : PatStr → String → Bool)
    (idFind : String → Option (Nat × String)) (rc : RootCheck)
    (root package_name language : String) (batchSize : Nat)
    (no_packagesets : Bool) : Nat :=
  match rc with
  | .missing => 1
  | .notDir => 1
  | .okDir t =>
    if (find_package oracle idFind root t package_name language batchSize !no_packagesets).found
    then 0 else 1

mutual
/-- Every directory reported by `walkFrom` has only non-denylisted
component names below the root, provided the starting components do. -/
theorem walkFrom_skip (comps : List String) (dname : String) (t : FSTree)
    (hc : ∀ d ∈ comps, should_skip_dir d = false) :
    ∀ v ∈ walkFrom comps dname t, ∀ d ∈ v.1, should_skip_dir d = false :=
  match t with
  | .dir _ subs _ => by
    intro v hv
    rw [walkFrom] at hv
    rcases List.mem_cons.mp hv with h | h
    · cases h; exact hc
    · exact walkSubs_skip comps subs hc v h
/-- Companion of `walkFrom_skip` for subdirectory lists. -/
theorem walkSubs_skip (comps : List String) (subs : List FSTree)
    (hc : ∀ d ∈ comps, should_skip_dir d = false) :
    ∀ v ∈ walkSubs comps subs, ∀ d ∈ v.1, should_skip_dir d = false :=
  match subs with
  | [] => by intro v hv; rw [walkSubs] at hv; exact absurd hv (List.not_mem_nil v)
  | d :: ds => by
    intro v hv
    rw [walkSubs] at hv
    rcases List.mem_append.mp hv with h | h
    · rcases hs : should_skip_dir (nameOf d) with _ | _
      · rw [if_neg (by simp [hs])] at h
        refine walkFrom_skip _ _ _ ?_ v h
        intro d2 hd2
        rcases List.mem_append.mp hd2 with h2 | h2
        · exact hc d2 h2
        · rw [List.mem_singleton.mp h2]; exact hs
      · rw [if_pos (by simp [hs])] at h
        exact absurd h (List.not_mem_nil v)
    · exact walkSubs_skip comps ds hc v h
end

/-- Characterisation of the usages produced by the line scanner: a usage
match carries the 1-based number of a line that no import pattern matched
(so the usage pattern was tested only on lines no import pattern
matched). -/
theorem scanImportsUsages_usage_line (ips : List (String → Bool))
    (up : Option (String → Bool)) (path : String) :
    ∀ (n : Nat) (lines : List String), ∀ m ∈ (scanImportsUsages ips up path n lines).2,
      ∃ j, j < lines.length ∧ m.line_number = some (n + j) ∧
        ips.any (fun p => p (lines.getD j "")) = false := by
  intro n lines
  induction lines generalizing n with
  | nil => simp [scanImportsUsages]
  | cons line rest ih =>
    intro m hm
    rcases hi : ips.any (fun p => p line) with _ | _
    · rcases up with _ | u
      · simp only [scanImportsUsages, hi, Bool.false_eq_true, if_false] at hm
        obtain ⟨j, hj, hln, hni⟩ := ih (n+1) m hm
        exact ⟨j+1, by simpa using hj, by rw [hln]; congr 1; omega, by simpa using hni⟩
      · rcases hul : u line with _ | _
        · simp only [scanImportsUsages, hi, hul, Bool.false_eq_true, if_false] at hm
          obtain ⟨j, hj, hln, hni⟩ := ih (n+1) m hm
          exact ⟨j+1, by simpa using hj, by rw [hln]; congr 1; omega, by simpa using hni⟩
        · simp only [scanImportsUsages, hi, hul, Bool.false_eq_true, if_false, if_true] at hm
          rcases List.mem_cons.mp hm with h | h
          · subst h
            exact ⟨0, by simp, by simp, by simpa using hi⟩
          · obtain ⟨j, hj, hln, hni⟩ := ih (n+1) m h
            exact ⟨j+1, by simpa using hj, by rw [hln]; congr 1; omega, by simpa using hni⟩
    · simp only [scanImportsUsages, hi, if_true] at hm
      obtain ⟨j, hj, hln, hni⟩ := ih (n+1) m hm
      exact ⟨j+1, by simpa using hj, by rw [hln]; congr 1; omega, by simpa using hni⟩

/-- Claim C4: for every tree walked by the scanning components, a
directory whose name is denylisted (exact `SKIP_DIRS` membership or the
`.egg-info` suffix rule, as `should_skip_dir` decides) is never descended
into, so no file yielded by the pruned walk — the walk every scanning
component uses — lies below a denylisted directory: every directory
component on a yielded file's path below the root is non-denylisted, and
likewise for every visited directory. -/
theorem skipped_dirs_never_yield_files (root : String) (t : FSTree)
    (x : List String × FileNode) (hx : x ∈ walkFilesOf root t) :
    (∀ d ∈ x.1, should_skip_dir d = false)
      ∧ ∀ v ∈ walkDirs root t, ∀ d ∈ v.1, should_skip_dir d = false := by
  refine ⟨?_, walkFrom_skip [] (basenameOf root) t (by simp)⟩
  rw [walkFilesOf, List.mem_flatMap] at hx
  obtain ⟨v, hv, hxv⟩ := hx
  rw [List.mem_map] at hxv
  obtain ⟨f, _, rfl⟩ := hxv
  exact walkFrom_skip [] (basenameOf root) t (by simp) v hv

/-- Witness for C4: a tree with a denylisted directory next to a normal
one; the file inside `src` is yielded and its components are all
non-denylisted (and, per the theorem, nothing below `.git` can appear). -/
theorem skipped_dirs_never_yield_files_witness :
    (((["src"], ⟨"y.py", []⟩) : List String × FileNode) ∈
      walkFilesOf "/r" (.dir "r" [.dir ".git" [] [⟨"x.py", []⟩], .dir "src" [] [⟨"y.py", []⟩]] []))
      ∧ ((∀ d ∈ (["src"] : List String), should_skip_dir d = false)
        ∧ ∀ v ∈ walkDirs "/r"
            (.dir "r" [.dir ".git" [] [⟨"x.py", []⟩], .dir "src" [] [⟨"y.py", []⟩]] []),
            ∀ d ∈ v.1, should_skip_dir d = false) :=
  ⟨by decide,
   skipped_dirs_never_yield_files "/r"
     (.dir "r" [.dir ".git" [] [⟨"x.py", []⟩], .dir "src" [] [⟨"y.py", []⟩]] [])
     (["src"], ⟨"y.py", []⟩) (by decide)⟩

/-- Claim C1: when the import/usage scanner classifies a line as an
import-line — some compiled import pattern matches it, for any
interpretation `oracle` of the patterns, any package name and language —
that line is never also recorded as a usage, even if the usage pattern
would also match it: the usage pattern is only tested on lines no import
pattern matched. -/
theorem import_line_never_usage (oracle : PatStr → String → Bool)
    (package_name language path : String) (lines : List String) (i : Nat)
    (hi : i < lines.length)
    (himp : ((get_import_patterns package_name language).map oracle).any
      (fun p => p (lines.getD i "")) = true) :
    (∀ m ∈ (search_file_for_imports oracle package_name language path lines).2,
      m.line_number ≠ some (i + 1))
      ∧ ∀ m ∈ (search_file_for_imports oracle package_name language path lines).2,
          ∃ j, j < lines.length ∧ m.line_number = some (j + 1) ∧
            ((get_import_patterns package_name language).map oracle).any
              (fun p => p (lines.getD j "")) = false := by
  have hchar : ∀ m ∈ (search_file_for_imports oracle package_name language path lines).2,
      ∃ j, j < lines.length ∧ m.line_number = some (j + 1) ∧
        ((get_import_patterns package_name language).map oracle).any
          (fun p => p (lines.getD j "")) = false := by
    intro m hm
    obtain ⟨j, hj, hln, hni⟩ :=
      scanImportsUsages_usage_line ((get_import_patterns package_name language).map oracle)
        ((get_usage_pattern package_name language).map oracle) path 1 lines m hm
    exact ⟨j, hj, by rw [hln]; congr 1; omega, hni⟩
  refine ⟨?_, hchar⟩
  intro m hm heq
  obtain ⟨j, hj, hln, hni⟩ := hchar m hm
  rw [hln] at heq
  have hji : j = i := by
    have h2 := Option.some.inj heq
    omega
  rw [hji] at hni
  rw [himp] at hni
  exact Bool.true_eq_false.mp hni

/-- Witness for C1: with an oracle under which every pattern (imports and
usage alike) matches every line, line 1 matches an import pattern, and no
usage is recorded for line 1. -/
theorem import_line_never_usage_witness :
    (0 : Nat) < (["import foo"] : List String).length
      ∧ ((get_import_patterns "foo" "python").map (fun _ _ => true)).any
          (fun p => p ((["import foo"] : List String).getD 0 "")) = true
      ∧ ((∀ m ∈ (search_file_for_imports (fun _ _ => true) "foo" "python" "/r/main.py"
            ["import foo"]).2, m.line_number ≠ some (0 + 1))
          ∧ ∀ m ∈ (search_file_for_imports (fun _ _ => true) "foo" "python" "/r/main.py"
              ["import foo"]).2,
              ∃ j, j < (["import foo"] : List String).length ∧ m.line_number = some (j + 1) ∧
                ((get_import_patterns "foo" "python").map (fun _ _ => true)).any
                  (fun p => p ((["import foo"] : List String).getD j "")) = false) :=
  ⟨by decide, by decide,
   import_line_never_usage (fun _ _ => true) "foo" "python" "/r/main.py"
     ["import foo"] 0 (by decide) (by decide)⟩

/-- Scanning with no import patterns and no usage pattern yields nothing. -/
theorem scanImportsUsages_empty (path : String) :
    ∀ (n : Nat) (lines : List String),
      scanImportsUsages [] none path n lines = ([], []) := by
  intro n lines
  induction lines generalizing n with
  | nil => rw [scanImportsUsages]
  | cons line rest ih => simp [scanImportsUsages, ih]

/-- Claim C10: for a resolved language outside the four lexical ones —
in particular `packageset`, which auto-detection can return because its
census counts `.packageset` files — the import pattern list is empty and
the usage pattern is `None`, so the import/usage scanner returns empty
results (imports and usages) for every file, under every interpretation
of the compiled patterns. -/
theorem non_lexical_language_scans_empty (package_name language : String)
    (hl : language ∉ (["python", "csharp", "perl", "rust"] : List String)) :
    get_import_patterns package_name language = []
      ∧ get_usage_pattern package_name language = none
      ∧ (∀ (oracle : PatStr → String → Bool) (path : String) (lines : List String),
          search_file_for_imports oracle package_name language path lines = ([], []))
      ∧ detect_language (.dir "r" [] [⟨"a.packageset", []⟩]) = "packageset" := by
  simp only [List.mem_cons, List.not_mem_nil, or_false, not_or] at hl
  obtain ⟨h1, h2, h3, h4⟩ := hl
  have hip : get_import_patterns package_name language = [] := by
    rw [get_import_patterns]
    simp [h1, h2, h3, h4]
  have hup : get_usage_pattern package_name language = none := by
    rw [get_usage_pattern]
    simp [h1, h2, h3, h4]
  refine ⟨hip, hup, ?_, by decide⟩
  intro oracle path lines
  rw [search_file_for_imports, hip, hup]
  exact scanImportsUsages_empty path 1 lines

/-- Witness for C10 at `language = "packageset"`. -/
theorem non_lexical_language_scans_empty_witness :
    ("packageset" ∉ (["python", "csharp", "perl", "rust"] : List String))
      ∧ (get_import_patterns "foo" "packageset" = []
          ∧ get_usage_pattern "foo" "packageset" = none
          ∧ (∀ (oracle : PatStr → String → Bool) (path : String) (lines : List String),
              search_file_for_imports oracle "foo" "packageset" path lines = ([], []))
          ∧ detect_language (.dir "r" [] [⟨"a.packageset", []⟩]) = "packageset") :=
  ⟨by decide, non_lexical_language_scans_empty "foo" "packageset" (by decide)⟩

/-- Every character `re.escape` escapes is accepted after a backslash. -/
theorem special_validEsc : ∀ c ∈ RE_SPECIAL, validEsc c = true := by decide

/-- The characters the checker treats specially in normal mode. -/
def SCANHEADS : List Char :=
  ['\\', '(', ')', '[', '*', '+', '?', '|', '^', '$', '\x7b', '\x7d', ']']

/-- Every checker-special character is in the `re.escape` special set, so
escaped package names never contain a bare checker-special character. -/
theorem scanheads_special : ∀ c ∈ SCANHEADS, c ∈ RE_SPECIAL := by decide

set_option maxHeartbeats 2000000 in
/-- A character the checker does not treat specially is consumed as one
literal atom. -/
theorem okM_lit {c : Char} (hm : c ∉ SCANHEADS) (d : Nat) (q : Bool) (rest : List Char) :
    okM false d q (c :: rest) = okM false d true rest := by
  simp only [SCANHEADS, List.mem_cons, List.not_mem_nil, or_false, not_or] at hm
  rw [okM.eq_def]
  split <;> simp_all

/-- Unfolding lemma for `reEscapeL`. -/
theorem reEscapeL_cons (c : Char) (cs : List Char) :
    reEscapeL (c :: cs) =
      (if RE_SPECIAL.contains c then ['\\', c] else [c]) ++ reEscapeL cs := rfl

/-- Consuming an escaped package name from any normal-mode state leaves
the group depth unchanged, never fails, and (when the name is non-empty)
leaves the checker able to accept a quantifier. -/
theorem okM_escape :
    ∀ (cs : List Char), cs ≠ [] → ∀ (rest : List Char) (d : Nat) (q : Bool),
      okM false d q (reEscapeL cs ++ rest) = okM false d true rest := by
  intro cs
  induction cs with
  | nil => intro h; exact absurd rfl h
  | cons c cs ih =>
    intro _ rest d q
    rw [reEscapeL_cons]
    by_cases hc : RE_SPECIAL.contains c = true
    · rw [if_pos hc]
      have hval : validEsc c = true := special_validEsc c (by simpa using hc)
      show (validEsc c && okM false d true (reEscapeL cs ++ rest)) = okM false d true rest
      rw [hval, Bool.true_and]
      cases cs with
      | nil => rfl
      | cons c2 cs2 => exact ih (List.cons_ne_nil c2 cs2) rest d true
    · rw [if_neg hc]
      have hns : c ∉ SCANHEADS := by
        intro hmem
        exact hc (by simpa using scanheads_special c hmem)
      show okM false d q (c :: (reEscapeL cs ++ rest)) = okM false d true rest
      rw [okM_lit hns]
      cases cs with
      | nil => rfl
      | cons c2 cs2 => exact ih (List.cons_ne_nil c2 cs2) rest d true

/-- Template-composition lemma: a pattern of the form
`prefix ++ re.escape(P) ++ suffix` compiles for every `P`, given that the
prefix scans cleanly to depth 0 with quantifier state `q`, and the suffix
is accepted from that state both directly (empty `P`) and after a literal
atom (non-empty `P`). -/
theorem compilesRe_embed (pre suf : PatStr) (q : Bool) (P : String)
    (hpre : ∀ X, okM false 0 false (pre ++ X) = okM false 0 q X)
    (hemp : okM false 0 q suf = true)
    (hne : okM false 0 true suf = true) :
    compilesRe (pre ++ re_escape P ++ suf) = true := by
  rw [compilesRe, List.append_assoc, hpre]
  rcases hP : P.data with _ | ⟨c, cs⟩
  · rw [re_escape, hP]
    simpa [reEscapeL] using hemp
  · rw [re_escape, hP, okM_escape (c :: cs) (List.cons_ne_nil c cs)]
    exact hne

/-- Claim C3: for every package name `P` (including names containing
regex metacharacters) and every language `L`, every definition, import,
and usage pattern built for `(P, L)` is a valid regex —
compiling never raises — because `P` is passed through `re.escape` before
being embedded in any template, so it always contributes a sequence of
literal atoms. -/
theorem patterns_always_compile (P L : String) :
    (get_definition_patterns P L).all compilesRe = true
      ∧ (get_import_patterns P L).all compilesRe = true
      ∧ (get_usage_pattern P L).all compilesRe = true := by
  by_cases h1 : L = "python"
  · subst h1
    refine ⟨by rw [get_definition_patterns]; rfl, ?_, ?_⟩
    · rw [List.all_eq_true]
      intro x hx
      simp only [get_import_patterns, String.reduceEq, reduceIte, List.mem_cons,
        List.mem_singleton, List.not_mem_nil, or_false] at hx
      rcases hx with rfl | rfl | rfl
      · exact compilesRe_embed _ _ false P (fun X => rfl) (by decide) (by decide)
      · exact compilesRe_embed _ _ false P (fun X => rfl) (by decide) (by decide)
      · exact compilesRe_embed _ _ true P (fun X => rfl) (by decide) (by decide)
    · simp only [get_usage_pattern, String.reduceEq, reduceIte, Option.all]
      exact compilesRe_embed _ _ true P (fun X => rfl) (by decide) (by decide)
  by_cases h2 : L = "csharp"
  · subst h2
    refine ⟨?_, ?_, ?_⟩
    · rw [List.all_eq_true]
      intro x hx
      simp only [get_definition_patterns, String.reduceEq, reduceIte, List.mem_cons,
        List.mem_singleton, List.not_mem_nil, or_false] at hx
      rcases hx with rfl | rfl
      · exact compilesRe_embed _ _ false P (fun X => rfl) (by decide) (by decide)
      · exact compilesRe_embed _ _ false P (fun X => rfl) (by decide) (by decide)
    · rw [List.all_eq_true]
      intro x hx
      simp only [get_import_patterns, String.reduceEq, reduceIte, List.mem_cons,
        List.mem_singleton, List.not_mem_nil, or_false] at hx
      rcases hx with rfl | rfl | rfl | rfl
      · exact compilesRe_embed _ _ false P (fun X => rfl) (by decide) (by decide)
      · exact compilesRe_embed _ _ false P (fun X => rfl) (by decide) (by decide)
      · exact compilesRe_embed _ _ false P (fun X => rfl) (by decide) (by decide)
      · exact compilesRe_embed _ _ false P (fun X => rfl) (by decide) (by decide)
    · simp only [get_usage_pattern, String.reduceEq, reduceIte, Option.all]
      exact compilesRe_embed _ _ true P (fun X => rfl) (by decide) (by decide)
  by_cases h3 : L = "perl"
  · subst h3
    refine ⟨?_, ?_, ?_⟩
    · rw [List.all_eq_true]
      intro x hx
      simp only [get_definition_patterns, String.reduceEq, reduceIte, List.mem_cons,
        List.mem_singleton, List.not_mem_nil, or_false] at hx
      rcases hx with rfl | rfl
      · exact compilesRe_embed _ _ false P (fun X => rfl) (by decide) (by decide)
      · exact compilesRe_embed _ _ false P (fun X => rfl) (by decide) (by decide)
    · rw [List.all_eq_true]
      intro x hx
      simp only [get_import_patterns, String.reduceEq, reduceIte, List.mem_cons,
        List.mem_singleton, List.not_mem_nil, or_false] at hx
      rcases hx with rfl | rfl | rfl | rfl
      · exact compilesRe_embed _ _ false P (fun X => rfl) (by decide) (by decide)
      · exact compilesRe_embed _ _ false P (fun X => rfl) (by decide) (by decide)
      · exact compilesRe_embed _ _ false P (fun X => rfl) (by decide) (by decide)
      · exact compilesRe_embed _ _ false P (fun X => rfl) (by decide) (by decide)
    · simp only [get_usage_pattern, String.reduceEq, reduceIte, Option.all]
      exact compilesRe_embed _ _ true P (fun X => rfl) (by decide) (by decide)
  by_cases h4 : L = "rust"
  · subst h4
    refine ⟨?_, ?_, ?_⟩
    · rw [List.all_eq_true]
      intro x hx
      simp only [get_definition_patterns, String.reduceEq, reduceIte, List.mem_cons,
        List.mem_singleton, List.not_mem_nil, or_false] at hx
      rcases hx with rfl | rfl | rfl
      · exact compilesRe_embed _ _ false P (fun X => rfl) (by decide) (by decide)
      · exact compilesRe_embed _ _ false P (fun X => rfl) (by decide) (by decide)
      · exact compilesRe_embed _ _ true P (fun X => rfl) (by decide) (by decide)
    · rw [List.all_eq_true]
      intro x hx
      simp only [get_import_patterns, String.reduceEq, reduceIte, List.mem_cons,
        List.mem_singleton, List.not_mem_nil, or_false] at hx
      rcases hx with rfl | rfl | rfl | rfl | rfl | rfl
      · exact compilesRe_embed _ _ false P (fun X => rfl) (by decide) (by decide)
      · exact compilesRe_embed _ _ false P (fun X => rfl) (by decide) (by decide)
      · exact compilesRe_embed _ _ true P (fun X => rfl) (by decide) (by decide)
      · exact compilesRe_embed _ _ true P (fun X => rfl) (by decide) (by decide)
      · exact compilesRe_embed _ _ false P (fun X => rfl) (by decide) (by decide)
      · exact compilesRe_embed _ _ false P (fun X => rfl) (by decide) (by decide)
    · simp only [get_usage_pattern, String.reduceEq, reduceIte, Option.all]
      exact compilesRe_embed _ _ true P (fun X => rfl) (by decide) (by decide)
  · refine ⟨?_, ?_, ?_⟩
    · rw [get_definition_patterns]
      simp [h1, h2, h3, h4]
    · rw [get_import_patterns]
      simp [h1, h2, h3, h4]
    · rw [get_usage_pattern]
      simp [h1, h2, h3, h4]

/-- Claim C5: a `.packageset` file whose filename minus the extension,
case-folded, equals the package name or ends with `.` followed by it, is
reported as a whole-file `definition` match (no line number) regardless
of its content and of the identifier search — the filename branch
`continue`s before any content inspection, and it is the file's only
match.  Moreover every such file the packageset locator walks contributes
exactly that match to `find_packageset_definition`. -/
theorem packageset_filename_match_short_circuits
    (idFind : String → Option (Nat × String)) (package_name fname : String)
    (hext : endsWithL fname.data ".packageset".data = true)
    (hname : pkgsetNameMatches package_name fname = true) :
    (∀ (path : String) (lines : List String),
      process_packageset_file idFind package_name path fname lines =
        [⟨path, "definition", none, some ("Filename match: " ++ fname)⟩])
      ∧ ∀ (root : String) (t : FSTree) (x : List String × FileNode),
          x ∈ pkgsetScanFiles root t → x.2.name = fname →
          (⟨filePathOf (pkgset_roots root t).1 x.1 fname, "definition", none,
            some ("Filename match: " ++ fname)⟩ : PackageMatch)
            ∈ find_packageset_definition idFind root t package_name := by
  have hproc : ∀ (path : String) (lines : List String),
      process_packageset_file idFind package_name path fname lines =
        [⟨path, "definition", none, some ("Filename match: " ++ fname)⟩] := by
    intro path lines
    rw [process_packageset_file, hext]
    simp [hname]
  refine ⟨hproc, ?_⟩
  intro root t x hx hn
  rw [find_packageset_definition, List.mem_flatMap]
  refine ⟨x, hx, ?_⟩
  rw [hn, hproc]
  exact List.mem_singleton.mpr rfl

/-- Witness for C5: the spec's own example file name
`office.engineering.opmlite.packageset` for package `opmlite`, inside a
canonical-layout tree; its content has no identifier field at all. -/
theorem packageset_filename_match_short_circuits_witness :
    endsWithL "office.engineering.opmlite.packageset".data ".packageset".data = true
      ∧ pkgsetNameMatches "opmlite" "office.engineering.opmlite.packageset" = true
      ∧ process_packageset_file (fun _ => none) "opmlite" "/r/p.packageset"
          "office.engineering.opmlite.packageset" ["no id here"] =
          [⟨"/r/p.packageset", "definition", none,
            some ("Filename match: " ++ "office.engineering.opmlite.packageset")⟩] :=
  ⟨by decide, by decide,
   (packageset_filename_match_short_circuits (fun _ => none) "opmlite"
     "office.engineering.opmlite.packageset" (by decide) (by decide)).1
     "/r/p.packageset" ["no id here"]⟩

/-- Membership in a guarded singleton. -/
theorem mem_ite_singleton {α : Type} (m a : α) (b : Bool) :
    m ∈ (if b then [a] else []) ↔ b = true ∧ m = a := by
  rcases b with _ | _ <;> simp

/-- Claim C8: for a Python search the definition locator is structural —
its matches are exactly: one match per visited directory whose name
equals the package name and whose files include the `__init__.py` marker,
pointing at the marker file with no line number; and one match per
visited directory whose files include the single-file module
`<package_name>.py`, pointing at that file.  Both rules can fire for the
same package (witnessed below on a tree holding both forms). -/
theorem python_definition_locator_structural (oracle : PatStr → String → Bool)
    (root : String) (t : FSTree) (package_name : String) :
    ∀ m, m ∈ find_package_definition oracle root t package_name "python" ↔
      ∃ v ∈ walkDirs root t,
        (v.2.1 = package_name ∧ "__init__.py" ∈ v.2.2.map FileNode.name ∧
          m = ⟨joinPath root v.1 ++ "/" ++ "__init__.py", "definition", none, none⟩)
        ∨ ((package_name ++ ".py") ∈ v.2.2.map FileNode.name ∧
          m = ⟨joinPath root v.1 ++ "/" ++ (package_name ++ ".py"), "definition", none, none⟩) := by
  intro m
  rw [find_package_definition, if_pos rfl, List.mem_flatMap]
  constructor
  · rintro ⟨v, hv, hm⟩
    rcases List.mem_append.mp hm with h | h
    · obtain ⟨hb, rfl⟩ := (mem_ite_singleton _ _ _).mp h
      obtain ⟨h1, h2⟩ := Bool.and_eq_true_iff.mp hb
      exact ⟨v, hv, Or.inl ⟨by simpa using h1, by simpa using h2, rfl⟩⟩
    · obtain ⟨hb, rfl⟩ := (mem_ite_singleton _ _ _).mp h
      exact ⟨v, hv, Or.inr ⟨by simpa using hb, rfl⟩⟩
  · rintro ⟨v, hv, ⟨h1, h2, rfl⟩ | ⟨h2, rfl⟩⟩
    · refine ⟨v, hv, List.mem_append.mpr (Or.inl ?_)⟩
      exact (mem_ite_singleton _ _ _).mpr ⟨by simp [h1, h2], rfl⟩
    · refine ⟨v, hv, List.mem_append.mpr (Or.inr ?_)⟩
      exact (mem_ite_singleton _ _ _).mpr ⟨by simp [h2], rfl⟩

/-- Witness for C8 (also the "both may fire" part of the claim): on a
tree with both `src/widgets/__init__.py` and a sibling `src/widgets.py`,
the locator reports both definition matches, and both have no line
number. -/
theorem python_definition_locator_structural_witness :
    ((⟨"/r/src/widgets/__init__.py", "definition", none, none⟩ : PackageMatch) ∈
        find_package_definition (fun _ _ => false) "/r"
          (.dir "r" [.dir "src" [.dir "widgets" [] [⟨"__init__.py", []⟩]] [⟨"widgets.py", []⟩]] [])
          "widgets" "python")
      ∧ ((⟨"/r/src/widgets.py", "definition", none, none⟩ : PackageMatch) ∈
        find_package_definition (fun _ _ => false) "/r"
          (.dir "r" [.dir "src" [.dir "widgets" [] [⟨"__init__.py", []⟩]] [⟨"widgets.py", []⟩]] [])
          "widgets" "python") := by
  constructor
  · exact (python_definition_locator_structural (fun _ _ => false) "/r"
      (.dir "r" [.dir "src" [.dir "widgets" [] [⟨"__init__.py", []⟩]] [⟨"widgets.py", []⟩]] [])
      "widgets" _).mpr ⟨(["src", "widgets"], "widgets", [⟨"__init__.py", []⟩]), by decide,
        Or.inl ⟨rfl, by decide, by decide⟩⟩
  · exact (python_definition_locator_structural (fun _ _ => false) "/r"
      (.dir "r" [.dir "src" [.dir "widgets" [] [⟨"__init__.py", []⟩]] [⟨"widgets.py", []⟩]] [])
      "widgets" _).mpr ⟨(["src"], "src", [⟨"widgets.py", []⟩]), by decide,
        Or.inr ⟨by decide, by decide⟩⟩

/-- Fold of `max` from an accumulator. -/
theorem foldl_max_acc : ∀ (l : List Nat) (a : Nat), l.foldl max a = max a (l.foldl max 0) := by
  intro l
  induction l with
  | nil => intro a; simp
  | cons x l ih =>
    intro a
    rw [List.foldl_cons, List.foldl_cons, ih (max a x), ih (max 0 x)]
    simp [Nat.max_assoc]

/-- Cons unfolding of the census maximum. -/
theorem maxValue_cons (k : String) (v : Nat) (rest : List (String × Nat)) :
    maxValue ((k, v) :: rest) = max v (maxValue rest) := by
  rw [maxValue, maxValue, List.map_cons, List.foldl_cons, foldl_max_acc]
  simp

/-- The census maximum is zero exactly when every count is zero. -/
theorem maxValue_eq_zero_iff : ∀ (l : List (String × Nat)),
    maxValue l = 0 ↔ ∀ p ∈ l, p.2 = 0 := by
  intro l
  induction l with
  | nil => simp [maxValue]
  | cons p rest ih =>
    rcases p with ⟨k, v⟩
    rw [maxValue_cons, Nat.max_eq_zero_iff, ih]
    simp

/-- The running-maximum fold of Python `max(keys, key=...)` returns the
first key in iteration order whose count equals the overall maximum. -/
theorem firstMax_spec : ∀ (rest : List (String × Nat)) (k : String) (v : Nat),
    ((k, v) :: rest).find? (fun p => p.2 == maxValue ((k, v) :: rest)) =
      some (firstMaxKeyAux k v rest, maxValue ((k, v) :: rest)) := by
  intro rest
  induction rest with
  | nil =>
    intro k v
    rw [maxValue_cons]
    simp [maxValue, firstMaxKeyAux, List.find?]
  | cons p2 rest ih =>
    rcases p2 with ⟨k2, v2⟩
    intro k v
    by_cases hv : v2 > v
    · have hmax : maxValue ((k, v) :: (k2, v2) :: rest) = maxValue ((k2, v2) :: rest) := by
        rw [maxValue_cons k v ((k2, v2) :: rest)]
        refine Nat.max_eq_right ?_
        rw [maxValue_cons]
        exact le_trans (le_of_lt hv) (Nat.le_max_left _ _)
      have hvlt : v < maxValue ((k2, v2) :: rest) := by
        rw [maxValue_cons]
        exact lt_of_lt_of_le hv (Nat.le_max_left _ _)
      rw [List.find?_cons_of_neg _ (by simp [hmax, Nat.ne_of_lt hvlt])]
      rw [hmax, firstMaxKeyAux, if_pos hv]
      exact ih k2 v2
    · have hle : v2 ≤ v := Nat.le_of_not_lt hv
      have hmax : maxValue ((k, v) :: (k2, v2) :: rest) = maxValue ((k, v) :: rest) := by
        simp only [maxValue_cons]
        rw [← Nat.max_assoc, Nat.max_eq_left hle]
      rw [hmax, firstMaxKeyAux, if_neg hv]
      by_cases h1 : v = maxValue ((k, v) :: rest)
      · rw [List.find?_cons_of_pos _ (by simpa using h1)]
        have hih := ih k v
        rw [List.find?_cons_of_pos _ (by simpa using h1)] at hih
        exact hih
      · have hvlt : v < maxValue ((k, v) :: rest) := by
          have hge : v ≤ maxValue ((k, v) :: rest) := by
            rw [maxValue_cons]; exact Nat.le_max_left v _
          omega
        have h2lt : v2 < maxValue ((k, v) :: rest) := lt_of_le_of_lt hle hvlt
        rw [List.find?_cons_of_neg _ (by simp [Nat.ne_of_lt hvlt]),
            List.find?_cons_of_neg _ (by simp [Nat.ne_of_lt h2lt])]
        have hih := ih k v
        rw [List.find?_cons_of_neg _ (by simp [Nat.ne_of_lt hvlt])] at hih
        exact hih

/-- Selection logic of `detect_language`, specified over an arbitrary
census: the result is the first key in iteration order whose count equals
the maximum, or the fixed default when every count is zero. -/
theorem detect_pick_spec (counts : List (String × Nat)) :
    (if maxValue counts == 0 then "csharp"
     else
       match counts with
       | [] => "csharp"
       | (k, v) :: rest => firstMaxKeyAux k v rest) =
      (if counts.all (fun p => p.2 == 0) then "csharp"
       else ((counts.find? (fun p => p.2 == maxValue counts)).map Prod.fst).getD "csharp") := by
  rcases counts with _ | ⟨⟨k, v⟩, rest⟩
  · rfl
  · by_cases hz : maxValue ((k, v) :: rest) = 0
    · rw [if_pos (by simpa using hz)]
      have hall : ((k, v) :: rest).all (fun p => p.2 == 0) = true := by
        rw [List.all_eq_true]
        intro p hp
        simpa using (maxValue_eq_zero_iff ((k, v) :: rest)).mp hz p hp
      rw [if_pos hall]
    · rw [if_neg (by simpa using hz)]
      have hall : ((k, v) :: rest).all (fun p => p.2 == 0) = false := by
        rcases hb : ((k, v) :: rest).all (fun p => p.2 == 0) with _ | _
        · rfl
        · exfalso
          refine hz ((maxValue_eq_zero_iff ((k, v) :: rest)).mpr ?_)
          intro p hp
          simpa using List.all_eq_true.mp hb p hp
      rw [hall, if_neg (by simp)]
      rw [firstMax_spec rest k v]
      rfl

/-- Claim C7: language auto-detection computes a per-language census by
file extension (`detect_counts`, with the source's bounded scan) and
returns the first language in registry iteration order whose count equals
the maximum count (ties broken by iteration order); when every count is
zero — for example on an empty tree — it returns the fixed default
`"csharp"` instead of failing. -/
theorem detect_language_first_max (t : FSTree) :
    detect_language t =
      (if (detect_counts t).all (fun p => p.2 == 0) then "csharp"
       else (((detect_counts t).find?
          (fun p => p.2 == maxValue (detect_counts t))).map Prod.fst).getD "csharp") :=
  detect_pick_spec (detect_counts t)

/-- A string of characters ending in anything but `e` does not end with
`" more"`. -/
theorem ends_append_ne_more (cs : List Char) (c : Char) (h : c ≠ 'e') :
    endsWithL (cs ++ [c]) " more".data = false := by
  rw [endsWithL]
  rcases hb : ((cs ++ [c]).drop ((cs ++ [c]).length - " more".data.length) == " more".data)
      with _ | _
  · rfl
  · exfalso
    have heq : (cs ++ [c]).drop ((cs ++ [c]).length - " more".data.length) = " more".data := by
      simpa using hb
    have hsplit : cs ++ [c] =
        (cs ++ [c]).take ((cs ++ [c]).length - " more".data.length) ++ " more".data := by
      conv_lhs =>
        rw [← List.take_append_drop ((cs ++ [c]).length - " more".data.length) (cs ++ [c])]
      rw [heq]
    have h1 : (cs ++ [c]).getLast? = some c := List.getLast?_concat cs
    rw [hsplit, List.getLast?_append] at h1
    have h2 : (" more".data.getLast?.or
        (((cs ++ [c]).take ((cs ++ [c]).length - " more".data.length)).getLast?)) = some 'e' := rfl
    rw [h2] at h1
    exact h ((Option.some.inj h1).symm)

/-- A result with a non-empty category is `found`. -/
theorem found_of_ne (r : SearchResult)
    (h : r.definitions ≠ [] ∨ r.imports ≠ [] ∨ r.usages ≠ []) : r.found = true := by
  rw [SearchResult.found]
  rcases hd : r.definitions with _ | ⟨x, xs⟩ <;>
    rcases hi : r.imports with _ | ⟨y, ys⟩ <;>
      rcases hu : r.usages with _ | ⟨z, zs⟩ <;> simp_all

/-- Shape of the formatter output for a found result. -/
theorem format_results_found (r : SearchResult) (root : String) (maxItems : Nat)
    (hf : r.found = true) :
    format_results r root maxItems =
      ["Search Results for: " ++ r.package_name ++ " (" ++ r.language ++ ")", eqBar]
        ++ defsSection root r.definitions maxItems
        ++ importsSection root r.imports maxItems
        ++ usagesSection root r.usages maxItems
        ++ summarySection r := by
  simp [format_results, hf]

/-- Claim C9 counterexample: with two definitions and a display limit of
one, the definitions display is truncated (the second path is absent) and
the header still reports the true total, yet no output line ends with
`" more"` — the claimed suffix is not appended for the definitions
category. -/
theorem format_results_no_defs_suffix_cex :
    (1 : Nat) < ((⟨"p", "python",
        [⟨"/r/a", "definition", none, none⟩, ⟨"/r/b", "definition", none, none⟩],
        [], []⟩ : SearchResult)).definitions.length
      ∧ ¬ (("  b" : String) ∈ format_results
          ⟨"p", "python",
            [⟨"/r/a", "definition", none, none⟩, ⟨"/r/b", "definition", none, none⟩],
            [], []⟩ "/r" 1)
      ∧ (format_results
          ⟨"p", "python",
            [⟨"/r/a", "definition", none, none⟩, ⟨"/r/b", "definition", none, none⟩],
            [], []⟩ "/r" 1).all (fun l => !(endsWithL l.data " more".data)) = true := by
  refine ⟨by decide, by decide, by decide⟩

/-- Claim C9 (amended): the formatter truncates each category display to
the configured maximum while headers report the true totals, and appends
the explicit `... and N more` suffix to the imports and usages categories
whenever their displays are truncated; the definitions display, however,
is truncated silently — no `... and N more` line is produced for it (so
long as no displayed definition path itself ends in `" more"`, no line of
the definitions section ends in `" more"` even when it is truncated). -/
theorem format_results_truncation (r : SearchResult) (root : String) (maxItems : Nat)
    (hpaths : ∀ m ∈ r.definitions,
      endsWithL ("  " ++ relative_to root m.path).data " more".data = false) :
    (defsSection root r.definitions maxItems).length ≤ 2 + maxItems
      ∧ (maxItems < r.imports.length →
          ("  ... and " ++ toString (r.imports.length - maxItems) ++ " more")
            ∈ format_results r root maxItems)
      ∧ (maxItems < r.usages.length →
          ("  ... and " ++ toString (r.usages.length - maxItems) ++ " more")
            ∈ format_results r root maxItems)
      ∧ (r.definitions ≠ [] →
          ("\n📦 Package Definitions (" ++ toString r.definitions.length ++ "):")
            ∈ format_results r root maxItems)
      ∧ (r.imports ≠ [] →
          ("\n📥 Imports (" ++ toString r.imports.length ++ "):")
            ∈ format_results r root maxItems)
      ∧ (r.usages ≠ [] →
          ("\n🔗 Usages (" ++ toString r.usages.length ++ "):")
            ∈ format_results r root maxItems)
      ∧ (∀ l ∈ defsSection root r.definitions maxItems,
          endsWithL l.data " more".data = false) := by
  refine ⟨?_, ?_, ?_, ?_, ?_, ?_, ?_⟩
  · rw [defsSection]
    rcases hde : r.definitions.isEmpty with _ | _
    · rw [if_neg (by simp [hde])]
      simp only [List.length_cons, List.length_map]
      have := List.length_take_le maxItems r.definitions
      omega
    · rw [if_pos (by simp [hde])]
      simp
  · intro hlt
    have hne : r.imports ≠ [] := by
      intro h0
      rw [h0] at hlt
      simp at hlt
    rw [format_results_found r root maxItems (found_of_ne r (Or.inr (Or.inl hne)))]
    refine List.mem_append.mpr (Or.inl ?_)
    refine List.mem_append.mpr (Or.inl ?_)
    refine List.mem_append.mpr (Or.inr ?_)
    rw [importsSection, if_neg (by simp [hne])]
    refine List.mem_cons.mpr (Or.inr (List.mem_cons.mpr (Or.inr ?_)))
    refine List.mem_append.mpr (Or.inr ?_)
    rw [if_pos hlt]
    exact List.mem_singleton.mpr rfl
  · intro hlt
    have hne : r.usages ≠ [] := by
      intro h0
      rw [h0] at hlt
      simp at hlt
    rw [format_results_found r root maxItems (found_of_ne r (Or.inr (Or.inr hne)))]
    refine List.mem_append.mpr (Or.inl ?_)
    refine List.mem_append.mpr (Or.inr ?_)
    rw [usagesSection, if_neg (by simp [hne])]
    refine List.mem_cons.mpr (Or.inr (List.mem_cons.mpr (Or.inr ?_)))
    refine List.mem_append.mpr (Or.inr ?_)
    rw [if_pos hlt]
    exact List.mem_singleton.mpr rfl
  · intro hne
    rw [format_results_found r root maxItems (found_of_ne r (Or.inl hne))]
    refine List.mem_append.mpr (Or.inl ?_)
    refine List.mem_append.mpr (Or.inl ?_)
    refine List.mem_append.mpr (Or.inl ?_)
    refine List.mem_append.mpr (Or.inr ?_)
    rw [defsSection, if_neg (by simp [hne])]
    exact List.mem_cons.mpr (Or.inl rfl)
  · intro hne
    rw [format_results_found r root maxItems (found_of_ne r (Or.inr (Or.inl hne)))]
    refine List.mem_append.mpr (Or.inl ?_)
    refine List.mem_append.mpr (Or.inl ?_)
    refine List.mem_append.mpr (Or.inr ?_)
    rw [importsSection, if_neg (by simp [hne])]
    exact List.mem_cons.mpr (Or.inl rfl)
  · intro hne
    rw [format_results_found r root maxItems (found_of_ne r (Or.inr (Or.inr hne)))]
    refine List.mem_append.mpr (Or.inl ?_)
    refine List.mem_append.mpr (Or.inr ?_)
    rw [usagesSection, if_neg (by simp [hne])]
    exact List.mem_cons.mpr (Or.inl rfl)
  · intro l hl
    rw [defsSection] at hl
    rcases hde : r.definitions.isEmpty with _ | _
    · rw [if_neg (by simp [hde])] at hl
      rcases List.mem_cons.mp hl with rfl | hl2
      · have hsh : ("\n📦 Package Definitions (" ++ toString r.definitions.length ++ "):").data =
            (("\n📦 Package Definitions (" ++ toString r.definitions.length).data ++ [')'])
              ++ [':'] := by
          simp
        rw [hsh]
        exact ends_append_ne_more _ _ (by decide)
      · rcases List.mem_cons.mp hl2 with rfl | hl3
        · decide
        · obtain ⟨m, hm, rfl⟩ := List.mem_map.mp hl3
          exact hpaths m (List.mem_of_mem_take hm)
    · rw [if_pos (by simp [hde])] at hl
      exact absurd hl (List.not_mem_nil l)

/-- Witness for the amended C9 on a result with truncated imports: the
suffix line is present, under concrete non-`" more"` definition paths. -/
theorem format_results_truncation_witness :
    (∀ m ∈ ([⟨"/r/a", "definition", none, none⟩,
        ⟨"/r/b", "definition", none, none⟩] : List PackageMatch),
      endsWithL ("  " ++ relative_to "/r" m.path).data " more".data = false)
      ∧ ((1 : Nat) < ([⟨"/r/c.py", "import", some 1, some "import p"⟩,
            ⟨"/r/d.py", "import", some 2, some "import p"⟩] : List PackageMatch).length →
          ("  ... and " ++ toString
            (([⟨"/r/c.py", "import", some 1, some "import p"⟩,
               ⟨"/r/d.py", "import", some 2, some "import p"⟩] : List PackageMatch).length - 1)
            ++ " more")
            ∈ format_results ⟨"p", "python",
                [⟨"/r/a", "definition", none, none⟩, ⟨"/r/b", "definition", none, none⟩],
                [⟨"/r/c.py", "import", some 1, some "import p"⟩,
                 ⟨"/r/d.py", "import", some 2, some "import p"⟩], []⟩ "/r" 1) :=
  ⟨by decide,
   (format_results_truncation
     ⟨"p", "python",
       [⟨"/r/a", "definition", none, none⟩, ⟨"/r/b", "definition", none, none⟩],
       [⟨"/r/c.py", "import", some 1, some "import p"⟩,
        ⟨"/r/d.py", "import", some 2, some "import p"⟩], []⟩ "/r" 1 (by decide)).2.1⟩

/-- Claim C6: the CLI exits 0 exactly when the root checks passed and at
least one match of any category was found; an invalid root (missing, or
not a directory — checked before any scanning) and a completed search
with no matches both exit 1, and no other exit code occurs. -/
theorem main_exit_codes (oracle : PatStr → String → Bool)
    (idFind : String → Option (Nat × String)) (rc : RootCheck)
    (root package_name language : String) (batchSize : Nat) (no_packagesets : Bool) :
    (main_exit oracle idFind rc root package_name language batchSize no_packagesets = 0 ↔
      ∃ t, rc = RootCheck.okDir t ∧
        (find_package oracle idFind root t package_name language batchSize
          !no_packagesets).found = true)
      ∧ main_exit oracle idFind RootCheck.missing root package_name language batchSize
          no_packagesets = 1
      ∧ main_exit oracle idFind RootCheck.notDir root package_name language batchSize
          no_packagesets = 1
      ∧ (main_exit oracle idFind rc root package_name language batchSize no_packagesets = 0
          ∨ main_exit oracle idFind rc root package_name language batchSize no_packagesets = 1) := by
  refine ⟨?_, rfl, rfl, ?_⟩
  · cases rc with
    | missing =>
      constructor
      · intro h
        exact absurd h (by rw [main_exit]; omega)
      · rintro ⟨t, ht, -⟩
        exact absurd ht (by intro h; cases h)
    | notDir =>
      constructor
      · intro h
        exact absurd h (by rw [main_exit]; omega)
      · rintro ⟨t, ht, -⟩
        exact absurd ht (by intro h; cases h)
    | okDir t =>
      rw [main_exit]
      rcases hf : (find_package oracle idFind root t package_name language batchSize
          !no_packagesets).found with _ | _
      · rw [if_neg (by simp [hf])]
        constructor
        · intro h
          exact absurd h (by omega)
        · rintro ⟨t2, ht2, hf2⟩
          cases ht2
          rw [hf] at hf2
          exact absurd hf2 (by simp)
      · rw [if_pos (by simp [hf])]
        exact ⟨fun _ => ⟨t, rfl, hf⟩, fun _ => rfl⟩
  · cases rc with
    | missing => exact Or.inr rfl
    | notDir => exact Or.inr rfl
    | okDir t =>
      rw [main_exit]
      rcases hf : (find_package oracle idFind root t package_name language batchSize
          !no_packagesets).found with _ | _
      · exact Or.inr (by rw [if_neg (by simp [hf])])
      · exact Or.inl (by rw [if_pos (by simp [hf])])

/-- Equal sort keys force equal paths. -/
theorem matchKey_congr_path {a b : PackageMatch} (h : matchKey a = matchKey b) :
    a.path = b.path := by
  have h2 := toLex.injective h
  have h3 : a.path.data = b.path.data := congrArg Prod.fst h2
  rcases hpa : a.path with ⟨da⟩
  rcases hpb : b.path with ⟨db⟩
  rw [hpa, hpb] at h3
  exact congrArg String.mk (by simpa using h3)

/-- Equal sort keys force equal (defaulted) line numbers. -/
theorem matchKey_congr_line {a b : PackageMatch} (h : matchKey a = matchKey b) :
    a.line_number.getD 0 = b.line_number.getD 0 :=
  congrArg Prod.snd (toLex.injective h)

/-- Lists of length at most one have duplicate-free key images. -/
theorem key_nodup_of_len_le_one (l : List PackageMatch) (h : l.length ≤ 1) :
    (l.map matchKey).Nodup := by
  rcases l with _ | ⟨a, l2⟩
  · simp
  · rcases l2 with _ | ⟨b, l3⟩
    · simp
    · simp at h

/-- Strictly increasing line numbers give duplicate-free keys. -/
theorem key_nodup_of_pairwise_lt (l : List PackageMatch)
    (h : l.Pairwise (fun a b => a.line_number.getD 0 < b.line_number.getD 0)) :
    (l.map matchKey).Nodup := by
  refine List.Pairwise.map matchKey ?_ h
  intro a b hab hk
  rw [matchKey_congr_line hk] at hab
  omega

/-- A sorted list with duplicate-free keys is the unique sorted ordering
of its permutation class. -/
theorem sorted_key_unique : ∀ (l₁ l₂ : List PackageMatch), l₁.Perm l₂ →
    (l₁.map matchKey).Nodup → l₁.Pairwise matchLe → l₂.Pairwise matchLe → l₁ = l₂ := by
  intro l₁
  induction l₁ with
  | nil =>
    intro l₂ hp _ _ _
    exact hp.nil_eq
  | cons a t ih =>
    intro l₂ hp hnd hs₁ hs₂
    rcases l₂ with _ | ⟨b, t₂⟩
    · have := hp.symm.nil_eq
      exact absurd this (by simp)
    · have hab : a = b := by
        by_contra hne
        have hbmem : b ∈ a :: t := hp.symm.subset (List.mem_cons_self b t₂)
        have hbt : b ∈ t := by
          rcases List.mem_cons.mp hbmem with h | h
          · exact absurd h.symm hne
          · exact h
        have hamem : a ∈ b :: t₂ := hp.subset (List.mem_cons_self a t)
        have hat : a ∈ t₂ := by
          rcases List.mem_cons.mp hamem with h | h
          · exact absurd h hne
          · exact h
        have h1 : matchLe a b := (List.pairwise_cons.mp hs₁).1 b hbt
        have h2 : matchLe b a := (List.pairwise_cons.mp hs₂).1 a hat
        have hkey : matchKey a = matchKey b := le_antisymm h1 h2
        have hmem : matchKey b ∈ t.map matchKey := List.mem_map.mpr ⟨b, hbt, rfl⟩
        rw [← hkey] at hmem
        exact (List.nodup_cons.mp (by simpa using hnd)).1 hmem
      subst hab
      have ht : t.Perm t₂ := hp.cons_inv
      rw [ih t₂ ht (List.nodup_cons.mp (by simpa using hnd)).2
        (List.pairwise_cons.mp hs₁).2 (List.pairwise_cons.mp hs₂).2]

/-- Sorting is invariant under permutation of the input when the keys are
duplicate-free: the aggregation order of batch results cannot change the
sorted output. -/
theorem sortMatches_eq_of_perm (l₁ l₂ : List PackageMatch) (hp : l₁.Perm l₂)
    (hnd : (l₂.map matchKey).Nodup) : sortMatches l₁ = sortMatches l₂ := by
  have hperm : (sortMatches l₁).Perm (sortMatches l₂) :=
    (List.perm_insertionSort matchLe l₁).trans
      (hp.trans (List.perm_insertionSort matchLe l₂).symm)
  refine sorted_key_unique _ _ hperm ?_
    (List.sorted_insertionSort matchLe l₁) (List.sorted_insertionSort matchLe l₂)
  have hpk : ((sortMatches l₁).map matchKey).Perm (l₂.map matchKey) :=
    ((List.perm_insertionSort matchLe l₁).trans hp).map matchKey
  exact hpk.nodup_iff.mpr hnd

/-- Every import match the scanner produces carries the scanned file's
path and a 1-based line number in range. -/
theorem scanImportsUsages_import_line (ips : List (String → Bool))
    (up : Option (String → Bool)) (path : String) :
    ∀ (n : Nat) (lines : List String), ∀ m ∈ (scanImportsUsages ips up path n lines).1,
      m.path = path ∧ ∃ j, j < lines.length ∧ m.line_number = some (n + j) := by
  intro n lines
  induction lines generalizing n with
  | nil => simp [scanImportsUsages]
  | cons line rest ih =>
    intro m hm
    rcases hi : ips.any (fun p => p line) with _ | _
    · rcases up with _ | u
      · simp only [scanImportsUsages, hi, Bool.false_eq_true, if_false] at hm
        obtain ⟨hp, j, hj, hln⟩ := ih (n+1) m hm
        exact ⟨hp, j+1, by simpa using hj, by rw [hln]; congr 1; omega⟩
      · rcases hul : u line with _ | _
        · simp only [scanImportsUsages, hi, hul, Bool.false_eq_true, if_false] at hm
          obtain ⟨hp, j, hj, hln⟩ := ih (n+1) m hm
          exact ⟨hp, j+1, by simpa using hj, by rw [hln]; congr 1; omega⟩
        · simp only [scanImportsUsages, hi, hul, Bool.false_eq_true, if_false,
            if_true] at hm
          obtain ⟨hp, j, hj, hln⟩ := ih (n+1) m hm
          exact ⟨hp, j+1, by simpa using hj, by rw [hln]; congr 1; omega⟩
    · simp only [scanImportsUsages, hi, if_true] at hm
      rcases List.mem_cons.mp hm with h | h
      · subst h
        exact ⟨rfl, 0, by simp, by simp⟩
      · obtain ⟨hp, j, hj, hln⟩ := ih (n+1) m h
        exact ⟨hp, j+1, by simpa using hj, by rw [hln]; congr 1; omega⟩

/-- Every usage match the scanner produces carries the scanned file's
path and a 1-based line number in range. -/
theorem scanImportsUsages_usage_pathline (ips : List (String → Bool))
    (up : Option (String → Bool)) (path : String) :
    ∀ (n : Nat) (lines : List String), ∀ m ∈ (scanImportsUsages ips up path n lines).2,
      m.path = path ∧ ∃ j, j < lines.length ∧ m.line_number = some (n + j) := by
  intro n lines
  induction lines generalizing n with
  | nil => simp [scanImportsUsages]
  | cons line rest ih =>
    intro m hm
    rcases hi : ips.any (fun p => p line) with _ | _
    · rcases up with _ | u
      · simp only [scanImportsUsages, hi, Bool.false_eq_true, if_false] at hm
        obtain ⟨hp, j, hj, hln⟩ := ih (n+1) m hm
        exact ⟨hp, j+1, by simpa using hj, by rw [hln]; congr 1; omega⟩
      · rcases hul : u line with _ | _
        · simp only [scanImportsUsages, hi, hul, Bool.false_eq_true, if_false] at hm
          obtain ⟨hp, j, hj, hln⟩ := ih (n+1) m hm
          exact ⟨hp, j+1, by simpa using hj, by rw [hln]; congr 1; omega⟩
        · simp only [scanImportsUsages, hi, hul, Bool.false_eq_true, if_false,
            if_true] at hm
          rcases List.mem_cons.mp hm with h | h
          · subst h
            exact ⟨rfl, 0, by simp, by simp⟩
          · obtain ⟨hp, j, hj, hln⟩ := ih (n+1) m h
            exact ⟨hp, j+1, by simpa using hj, by rw [hln]; congr 1; omega⟩
    · simp only [scanImportsUsages, hi, if_true] at hm
      obtain ⟨hp, j, hj, hln⟩ := ih (n+1) m hm
      exact ⟨hp, j+1, by simpa using hj, by rw [hln]; congr 1; omega⟩

/-- The scanner's import matches have strictly increasing line numbers. -/
theorem scanImportsUsages_import_pairwise (ips : List (String → Bool))
    (up : Option (String → Bool)) (path : String) :
    ∀ (n : Nat) (lines : List String),
      ((scanImportsUsages ips up path n lines).1).Pairwise
        (fun a b => a.line_number.getD 0 < b.line_number.getD 0) := by
  intro n lines
  induction lines generalizing n with
  | nil => simp [scanImportsUsages]
  | cons line rest ih =>
    rcases hi : ips.any (fun p => p line) with _ | _
    · rcases up with _ | u
      · simpa only [scanImportsUsages, hi, Bool.false_eq_true, if_false] using ih (n+1)
      · rcases hul : u line with _ | _
        · simpa only [scanImportsUsages, hi, hul, Bool.false_eq_true, if_false]
            using ih (n+1)
        · simpa only [scanImportsUsages, hi, hul, Bool.false_eq_true, if_false, if_true]
            using ih (n+1)
    · simp only [scanImportsUsages, hi, if_true]
      refine List.pairwise_cons.mpr ⟨?_, ih (n+1)⟩
      intro m hm
      obtain ⟨-, j, -, hln⟩ := scanImportsUsages_import_line ips up path (n+1) rest m hm
      simp only [hln, Option.getD_some]
      omega

/-- The scanner's usage matches have strictly increasing line numbers. -/
theorem scanImportsUsages_usage_pairwise (ips : List (String → Bool))
    (up : Option (String → Bool)) (path : String) :
    ∀ (n : Nat) (lines : List String),
      ((scanImportsUsages ips up path n lines).2).Pairwise
        (fun a b => a.line_number.getD 0 < b.line_number.getD 0) := by
  intro n lines
  induction lines generalizing n with
  | nil => simp [scanImportsUsages]
  | cons line rest ih =>
    rcases hi : ips.any (fun p => p line) with _ | _
    · rcases up with _ | u
      · simpa only [scanImportsUsages, hi, Bool.false_eq_true, if_false] using ih (n+1)
      · rcases hul : u line with _ | _
        · simpa only [scanImportsUsages, hi, hul, Bool.false_eq_true, if_false]
            using ih (n+1)
        · simp only [scanImportsUsages, hi, hul, Bool.false_eq_true, if_false, if_true]
          refine List.pairwise_cons.mpr ⟨?_, ih (n+1)⟩
          intro m hm
          obtain ⟨-, j, -, hln⟩ := scanImportsUsages_usage_pathline ips (some u) path (n+1)
            rest m hm
          simp only [hln, Option.getD_some]
          omega
    · simpa only [scanImportsUsages, hi, if_true] using ih (n+1)

/-- Keys are duplicate-free across a per-file scan that is concatenated
over files with duplicate-free paths, provided each file's own keys are
duplicate-free and mention only that file's path. -/
theorem flatMap_key_nodup {F : Type} (pathOf : F → String) (proc : F → List PackageMatch)
    (hpath : ∀ x, ∀ m ∈ proc x, m.path = pathOf x)
    (hkeys : ∀ x, ((proc x).map matchKey).Nodup) :
    ∀ (files : List F), (files.map pathOf).Nodup →
      ((files.flatMap proc).map matchKey).Nodup := by
  intro files
  induction files with
  | nil => simp
  | cons x xs ih =>
    intro hnd
    rw [List.flatMap_cons, List.map_append, List.nodup_append]
    have hnd2 := List.nodup_cons.mp (by simpa only [List.map_cons] using hnd)
    refine ⟨hkeys x, ih hnd2.2, ?_⟩
    intro k hk1 hk2
    obtain ⟨m, hm, hkm⟩ := List.mem_map.mp hk1
    obtain ⟨m2, hm2, hkm2⟩ := List.mem_map.mp hk2
    obtain ⟨y, hy, hm2y⟩ := List.mem_flatMap.mp hm2
    have hkeq : matchKey m = matchKey m2 := by rw [hkm, hkm2]
    have hxy : pathOf x = pathOf y := by
      rw [← hpath x m hm, ← hpath y m2 hm2y]
      exact matchKey_congr_path hkeq
    refine hnd2.1 ?_
    rw [hxy]
    exact List.mem_map.mpr ⟨y, hy, rfl⟩

/-- Concatenating whole-file matches (line number defaulted to zero) with
line matches (line number at least one) keeps keys duplicate-free. -/
theorem key_nodup_append_zero_pos (A B : List PackageMatch)
    (hA : (A.map matchKey).Nodup) (hB : (B.map matchKey).Nodup)
    (hA0 : ∀ m ∈ A, m.line_number.getD 0 = 0)
    (hB1 : ∀ m ∈ B, 1 ≤ m.line_number.getD 0) :
    ((A ++ B).map matchKey).Nodup := by
  rw [List.map_append, List.nodup_append]
  refine ⟨hA, hB, ?_⟩
  intro k hk1 hk2
  obtain ⟨m, hm, hkm⟩ := List.mem_map.mp hk1
  obtain ⟨m2, hm2, hkm2⟩ := List.mem_map.mp hk2
  have hkeq : matchKey m = matchKey m2 := by rw [hkm, hkm2]
  have h0 := hA0 m hm
  have h1 := hB1 m2 hm2
  rw [matchKey_congr_line hkeq] at h0
  omega

/-- The fuelled chunking loses no elements and keeps their order. -/
theorem chunksAux_flatten {α : Type} (n : Nat) (hn : 1 ≤ n) :
    ∀ (f : Nat) (l : List α), l.length ≤ f → (chunksAux n f l).flatten = l := by
  intro f
  induction f with
  | zero =>
    intro l hl
    rcases l with _ | ⟨a, l2⟩
    · rfl
    · simp at hl
  | succ f ih =>
    intro l hl
    rcases l with _ | ⟨a, l2⟩
    · rfl
    · have hl2 : l2.length + 1 ≤ f + 1 := by simpa using hl
      rw [chunksAux, List.flatten_cons,
        ih ((a :: l2).drop n) (by simp only [List.length_drop, List.length_cons]; omega)]
      exact List.take_append_drop n (a :: l2)

/-- Batching loses no files. -/
theorem chunksOf_flatten {α : Type} (n : Nat) (hn : 1 ≤ n) (l : List α) :
    (chunksOf n l).flatten = l :=
  chunksAux_flatten n hn l.length l (le_refl _)

/-- The aggregated import lists of a batch list are the per-file import
lists of the concatenated files. -/
theorem batch_fst_flatten (oracle : PatStr → String → Bool) (pkg lang : String) :
    ∀ (bs : List (List (String × List String))),
      ((bs.map (search_files_batch oracle pkg lang)).map Prod.fst).flatten =
        (bs.flatten).flatMap (fun f => (search_file_for_imports oracle pkg lang f.1 f.2).1) := by
  intro bs
  induction bs with
  | nil => rfl
  | cons b bs ih =>
    rw [List.map_cons, List.map_cons, List.flatten_cons, ih, List.flatten_cons,
      List.flatMap_append]
    congr 1
    simp only [search_files_batch, List.flatMap_def, List.map_map]
    rfl

/-- The aggregated usage lists of a batch list are the per-file usage
lists of the concatenated files. -/
theorem batch_snd_flatten (oracle : PatStr → String → Bool) (pkg lang : String) :
    ∀ (bs : List (List (String × List String))),
      ((bs.map (search_files_batch oracle pkg lang)).map Prod.snd).flatten =
        (bs.flatten).flatMap (fun f => (search_file_for_imports oracle pkg lang f.1 f.2).2) := by
  intro bs
  induction bs with
  | nil => rfl
  | cons b bs ih =>
    rw [List.map_cons, List.map_cons, List.flatten_cons, ih, List.flatten_cons,
      List.flatMap_append]
    congr 1
    simp only [search_files_batch, List.flatMap_def, List.map_map]
    rfl

/-- Per-file facts about the packageset locator: at most one match is
emitted, every match carries the file's path, and a match not classified
as a definition (the loose content reference) has no line number. -/
theorem process_packageset_facts (idFind : String → Option (Nat × String))
    (pkg path name : String) (lines : List String) :
    (process_packageset_file idFind pkg path name lines).length ≤ 1
      ∧ ∀ m ∈ process_packageset_file idFind pkg path name lines,
          m.path = path ∧ ((!(m.match_type == "definition")) = true → m.line_number = none) := by
  rw [process_packageset_file]
  rcases he : endsWithL name.data ".packageset".data with _ | _
  · simp
  · simp only [Bool.not_true, Bool.false_eq_true, if_false]
    rcases hnm : pkgsetNameMatches pkg name with _ | _
    · simp only [Bool.false_eq_true, if_false]
      rcases hid : idFind (String.intercalate "\n" lines) with _ | ⟨ln, lc⟩
      · rcases hct : containsL (lowerL (String.intercalate "\n" lines).data)
            (lowerL pkg.data) with _ | _
        · simp
        · simp
      · simp
    · simp

/-- Full path strings of a walked file list below a base. -/
def walkedPaths (base : String) (l : List (List String × FileNode)) : List String :=
  l.map (fun x => filePathOf base x.1 x.2.name)

/-- Well-formedness of the modelled filesystem for one search: the walks
the search performs yield pairwise distinct full path strings.  This
holds for every real directory tree (distinct sibling names, no `/` in
names); it is stated directly on the walks to keep the theorem
self-contained. -/
def fsWellFormed (root : String) (t : FSTree) : Prop :=
  (walkedPaths root (walkFilesOf root t)).Nodup
    ∧ (walkedPaths (pkgset_roots root t).1 (pkgsetScanFiles root t)).Nodup

/-- A guarded `filterMap` whose kept values carry the element's path maps
to a sublist of the element paths. -/
theorem filterMap_path_sublist {α β : Type} (g : α → Option (String × β)) (pathOf : α → String)
    (hg : ∀ x r, g x = some r → r.1 = pathOf x) :
    ∀ (l : List α), ((l.filterMap g).map Prod.fst).Sublist (l.map pathOf) := by
  intro l
  induction l with
  | nil => simp
  | cons x xs ih =>
    rw [List.filterMap_cons, List.map_cons]
    rcases hx : g x with _ | r
    · exact ih.cons (pathOf x)
    · rw [List.map_cons, hg x r hx]
      exact ih.cons₂ (pathOf x)

/-- The source-file collection yields paths from the pruned walk. -/
theorem iter_source_paths_sublist (root : String) (t : FSTree) (language : String)
    (include_configs : Bool) :
    ((iter_source_files root t language include_configs).map Prod.fst).Sublist
      (walkedPaths root (walkFilesOf root t)) := by
  rw [iter_source_files, walkedPaths]
  refine filterMap_path_sublist _ _ ?_ (walkFilesOf root t)
  intro x r hr
  simp only at hr
  rcases h1 : (if LANG_ORDER.contains language then extensionsOf language
      else ALL_EXTENSIONS).contains (pathSuffix x.2.name) with _ | _
  · rw [if_neg (by rw [h1]; exact Bool.false_ne_true)] at hr
    rcases h2 : include_configs && (if LANG_ORDER.contains language then config_filesOf language
        else ALL_CONFIG_FILES).contains x.2.name with _ | _
    · rw [if_neg (by rw [h2]; exact Bool.false_ne_true)] at hr
      cases hr
    · rw [if_pos h2] at hr
      cases hr
      rfl
  · rw [if_pos h1] at hr
    cases hr
    rfl

/-- The packageset matches have duplicate-free keys when the packageset
walk yields distinct paths. -/
theorem pkgset_key_nodup (idFind : String → Option (Nat × String)) (root : String)
    (t : FSTree) (package_name : String) (sp : Bool)
    (h : (walkedPaths (pkgset_roots root t).1 (pkgsetScanFiles root t)).Nodup) :
    ((pkgsetPart idFind root t package_name sp).map matchKey).Nodup := by
  rw [pkgsetPart]
  rcases sp with _ | _
  · simp
  · simp only [if_true]
    rw [find_packageset_definition]
    refine flatMap_key_nodup
      (fun (x : List String × FileNode) => filePathOf (pkgset_roots root t).1 x.1 x.2.name)
      _ ?_ ?_ _ (by exact h)
    · intro x m hm
      exact ((process_packageset_facts idFind package_name _ _ _).2 m hm).1
    · intro x
      exact key_nodup_of_len_le_one _ (process_packageset_facts idFind package_name _ _ _).1

/-- Non-definition packageset matches (the loose content references that
land in the imports list) have no line number, hence key line 0. -/
theorem pkgset_nondef_line_zero (idFind : String → Option (Nat × String)) (root : String)
    (t : FSTree) (package_name : String) (sp : Bool) :
    ∀ m ∈ (pkgsetPart idFind root t package_name sp).filter
        (fun m => !(m.match_type == "definition")),
      m.line_number.getD 0 = 0 := by
  intro m hm
  obtain ⟨hmem, hcond⟩ := List.mem_filter.mp hm
  rw [pkgsetPart] at hmem
  rcases sp with _ | _
  · simp at hmem
  · simp only [if_true] at hmem
    rw [find_packageset_definition] at hmem
    obtain ⟨x, hx, hmx⟩ := List.mem_flatMap.mp hmem
    rw [((process_packageset_facts idFind package_name _ _ _).2 m hmx).2 hcond]
    rfl

/-- Per-file import scans over files with distinct paths have
duplicate-free keys. -/
theorem scan_imports_key_nodup (oracle : PatStr → String → Bool) (pkg lang : String)
    (files : List (String × List String)) (h : (files.map Prod.fst).Nodup) :
    ((files.flatMap
        (fun f => (search_file_for_imports oracle pkg lang f.1 f.2).1)).map matchKey).Nodup :=
  flatMap_key_nodup Prod.fst _
    (fun x m hm => (scanImportsUsages_import_line _ _ x.1 1 x.2 m hm).1)
    (fun x => key_nodup_of_pairwise_lt _ (scanImportsUsages_import_pairwise _ _ x.1 1 x.2))
    files h

/-- Per-file usage scans over files with distinct paths have
duplicate-free keys. -/
theorem scan_usages_key_nodup (oracle : PatStr → String → Bool) (pkg lang : String)
    (files : List (String × List String)) (h : (files.map Prod.fst).Nodup) :
    ((files.flatMap
        (fun f => (search_file_for_imports oracle pkg lang f.1 f.2).2)).map matchKey).Nodup :=
  flatMap_key_nodup Prod.fst _
    (fun x m hm => (scanImportsUsages_usage_pathline _ _ x.1 1 x.2 m hm).1)
    (fun x => key_nodup_of_pairwise_lt _ (scanImportsUsages_usage_pairwise _ _ x.1 1 x.2))
    files h

/-- Import matches from the line scan have key line at least one. -/
theorem scan_imports_line_pos (oracle : PatStr → String → Bool) (pkg lang : String)
    (files : List (String × List String)) :
    ∀ m ∈ files.flatMap (fun f => (search_file_for_imports oracle pkg lang f.1 f.2).1),
      1 ≤ m.line_number.getD 0 := by
  intro m hm
  obtain ⟨f, hf, hmf⟩ := List.mem_flatMap.mp hm
  obtain ⟨-, j, -, hln⟩ := scanImportsUsages_import_line _ _ f.1 1 f.2 m hmf
  simp [hln]

/-- Claim C2: for every root, package name, language, and batch size (at
least one), on a well-formed filesystem the imports and usages lists of
the final `SearchResult` are sorted ascending by `(path, line_number or
0)` — the order `matchLe` on `matchKey` — and the final result is
identical whether the batch results are aggregated sequentially (batch
order) or in any parallel completion order: every arrival order that is a
permutation of the batch list produces the same `SearchResult`. -/
theorem find_package_parallel_deterministic (oracle : PatStr → String → Bool)
    (idFind : String → Option (Nat × String)) (root : String) (t : FSTree)
    (package_name language : String) (batchSize : Nat) (search_packagesets : Bool)
    (arrival : List (List (String × List String)))
    (hb : 1 ≤ batchSize)
    (hperm : arrival.Perm (batchesFor root t (resolvedLang t language) batchSize))
    (hwf : fsWellFormed root t) :
    find_package_core oracle idFind root t package_name language search_packagesets arrival
      = find_package oracle idFind root t package_name language batchSize search_packagesets
    ∧ (find_package oracle idFind root t package_name language batchSize
        search_packagesets).imports.Pairwise matchLe
    ∧ (find_package oracle idFind root t package_name language batchSize
        search_packagesets).usages.Pairwise matchLe := by
  have hfilesnd :
      ((iter_source_files root t (resolvedLang t language) true).map Prod.fst).Nodup :=
    List.Nodup.sublist (iter_source_paths_sublist root t (resolvedLang t language) true) hwf.1
  have himp : sortMatches
      ((pkgsetPart idFind root t package_name search_packagesets).filter
          (fun m => !(m.match_type == "definition"))
        ++ ((arrival.map (search_files_batch oracle package_name
            (resolvedLang t language))).map Prod.fst).flatten)
      = sortMatches
      ((pkgsetPart idFind root t package_name search_packagesets).filter
          (fun m => !(m.match_type == "definition"))
        ++ (((batchesFor root t (resolvedLang t language) batchSize).map
            (search_files_batch oracle package_name (resolvedLang t language))).map
            Prod.fst).flatten) := by
    refine sortMatches_eq_of_perm _ _
      (List.Perm.append_left _ (List.Perm.flatten ((hperm.map _).map _))) ?_
    rw [batch_fst_flatten, batchesFor, chunksOf_flatten batchSize hb]
    refine key_nodup_append_zero_pos _ _ ?_ ?_ ?_ ?_
    · exact List.Nodup.sublist ((List.filter_sublist _).map matchKey)
        (pkgset_key_nodup idFind root t package_name search_packagesets hwf.2)
    · exact scan_imports_key_nodup oracle package_name (resolvedLang t language) _ hfilesnd
    · exact pkgset_nondef_line_zero idFind root t package_name search_packagesets
    · exact scan_imports_line_pos oracle package_name (resolvedLang t language) _
  have huse : sortMatches
      (((arrival.map (search_files_batch oracle package_name
          (resolvedLang t language))).map Prod.snd).flatten)
      = sortMatches
      ((((batchesFor root t (resolvedLang t language) batchSize).map
          (search_files_batch oracle package_name (resolvedLang t language))).map
          Prod.snd).flatten) := by
    refine sortMatches_eq_of_perm _ _ (List.Perm.flatten ((hperm.map _).map _)) ?_
    rw [batch_snd_flatten, batchesFor, chunksOf_flatten batchSize hb]
    exact scan_usages_key_nodup oracle package_name (resolvedLang t language) _ hfilesnd
  refine ⟨?_, ?_, ?_⟩
  · simp only [find_package, find_package_core]
    rw [SearchResult.mk.injEq]
    exact ⟨rfl, rfl, rfl, himp, huse⟩
  · exact List.sorted_insertionSort matchLe _
  · exact List.sorted_insertionSort matchLe _

/-- Witness for C2: two one-file batches processed in swapped (parallel
completion) order produce the same result as the sequential order, on a
concrete two-file tree. -/
theorem find_package_parallel_deterministic_witness :
    (1 : Nat) ≤ 1
      ∧ ([[(("/r/b.py" : String), ([] : List String))], [("/r/a.py", [])]]).Perm
          (batchesFor "/r" (.dir "r" [] [⟨"a.py", []⟩, ⟨"b.py", []⟩])
            (resolvedLang (.dir "r" [] [⟨"a.py", []⟩, ⟨"b.py", []⟩]) "python") 1)
      ∧ fsWellFormed "/r" (.dir "r" [] [⟨"a.py", []⟩, ⟨"b.py", []⟩])
      ∧ (find_package_core (fun _ _ => false) (fun _ => none) "/r"
            (.dir "r" [] [⟨"a.py", []⟩, ⟨"b.py", []⟩]) "foo" "python" true
            [[("/r/b.py", [])], [("/r/a.py", [])]]
          = find_package (fun _ _ => false) (fun _ => none) "/r"
            (.dir "r" [] [⟨"a.py", []⟩, ⟨"b.py", []⟩]) "foo" "python" 1 true
        ∧ (find_package (fun _ _ => false) (fun _ => none) "/r"
            (.dir "r" [] [⟨"a.py", []⟩, ⟨"b.py", []⟩]) "foo" "python" 1
            true).imports.Pairwise matchLe
        ∧ (find_package (fun _ _ => false) (fun _ => none) "/r"
            (.dir "r" [] [⟨"a.py", []⟩, ⟨"b.py", []⟩]) "foo" "python" 1
            true).usages.Pairwise matchLe) :=
  ⟨le_refl 1,
   by
     have h : batchesFor "/r" (.dir "r" [] [⟨"a.py", []⟩, ⟨"b.py", []⟩])
         (resolvedLang (.dir "r" [] [⟨"a.py", []⟩, ⟨"b.py", []⟩]) "python") 1 =
         [[(("/r/a.py" : String), ([] : List String))], [("/r/b.py", [])]] := by decide
     rw [h]
     exact List.Perm.swap _ _ _,
   by constructor <;> decide,
   find_package_parallel_deterministic (fun _ _ => false) (fun _ => none) "/r"
     (.dir "r" [] [⟨"a.py", []⟩, ⟨"b.py", []⟩]) "foo" "python" 1 true
     [[("/r/b.py", [])], [("/r/a.py", [])]] (le_refl 1)
     (by
       have h : batchesFor "/r" (.dir "r" [] [⟨"a.py", []⟩, ⟨"b.py", []⟩])
           (resolvedLang (.dir "r" [] [⟨"a.py", []⟩, ⟨"b.py", []⟩]) "python") 1 =
           [[(("/r/a.py" : String), ([] : List String))], [("/r/b.py", [])]] := by decide
       rw [h]
       exact List.Perm.swap _ _ _)
     (by constructor <;> decide)⟩
